import Mathlib

/-!
Verification of the audio-tuner DSP core (phase vocoder, PSOLA, WAV codec,
frequency mapper) against its natural-language specification.

Modelling conventions:
* C `float`/`double` values are embedded as exact rationals (`ℚ`); machine
  rounding is idealized away, so every arithmetic identity below is exact.
* The libm transcendentals (`cosf`, `sinf`, `atan2f`, `sqrtf`, `powf`) have no
  exact rational counterpart; functions that use them are parameterized over a
  `CMath` record of rational-valued stand-ins, and theorems quantify over it
  (none of the verified properties depend on the values these functions take).
* C `while` loops are translated as structural recursion on an explicit
  iteration bound; every bound chosen below strictly exceeds the number of
  iterations the loop can perform (each loop advances its induction variable
  by a positive amount each pass), so the recursion always exits through the
  loop's own guard, exactly as the C does.  The bound is noted at each loop.
* C casts from floating point to `int` truncate toward zero; `ratTrunc` below
  has exactly that semantics.  `int` division in C also truncates toward zero
  and is modelled with `Int.tdiv`; `uint32_t` arithmetic is `% 2^32`.
* The double constant `M_PI` is the exact rational value of the IEEE-754
  double closest to pi, `piQ` below.
* Byte streams (WAV files) are `List ℕ` of byte values; the 4-byte IEEE-754
  encoding of a `float` has no exact counterpart on `ℚ`, so the float writer
  and reader are parameterized over an encoder/decoder pair.
-/

/-- Audio buffer exactly as in the C sources: a sample array, an explicit
length field and a sample rate (`phase_voc.c`, `psola.c`, `phase_voc.h`). -/
structure AudioBuffer where
  data : List ℚ
  length : ℕ
  sample_rate : ℕ
deriving DecidableEq

/-- Rational-valued stand-ins for the libm functions used by the C sources. -/
structure CMath where
  cosR : ℚ → ℚ
  sinR : ℚ → ℚ
  atan2R : ℚ → ℚ → ℚ
  sqrtR : ℚ → ℚ

/-- The exact value of the IEEE-754 double constant `M_PI`
(3.14159265358979323846 rounded to double precision). -/
def piQ : ℚ := 884279719003555 / 281474976710656

/-- C cast from a floating-point value to `int`: truncation toward zero. -/
def ratTrunc (q : ℚ) : ℤ :=
  if 0 ≤ q.num then ((q.num.toNat / q.den : ℕ) : ℤ)
  else -(((-q.num).toNat / q.den : ℕ) : ℤ)

/-- Ratio clamping common to both engines (`phase_voc.c` lines 106–108,
`psola.c` lines 143–145): `if (r < 0.5f) r = 0.5f; if (r > 2.0f) r = 2.0f;`. -/
def clamp_ratio (r : ℚ) : ℚ :=
  let r1 := if r < 1/2 then 1/2 else r
  if 2 < r1 then 2 else r1

/-- Iteration bound for one `wrap_phase` loop: enough passes to bring the
phase into range, since each pass moves it by `2*piQ > 6 > 1`. -/
def wrapFuel (p : ℚ) : ℕ := (ratTrunc p).toNat + 1

/-- First loop of `wrap_phase` (`phase_voc.c` line 97): subtract `2π` while
the phase exceeds `π`. -/
def wrapDown : ℕ → ℚ → ℚ
  | 0, p => p
  | fuel + 1, p => if piQ < p then wrapDown fuel (p - 2 * piQ) else p

/-- Second loop of `wrap_phase` (`phase_voc.c` line 98): add `2π` while the
phase is below `-π`. -/
def wrapUp : ℕ → ℚ → ℚ
  | 0, p => p
  | fuel + 1, p => if p < -piQ then wrapUp fuel (p + 2 * piQ) else p

/-- `wrap_phase` from `phase_voc.c` lines 95–100. -/
def wrap_phase (p : ℚ) : ℚ :=
  wrapUp (wrapFuel (-(wrapDown (wrapFuel p) p))) (wrapDown (wrapFuel p) p)

/-- Peak magnitude scan shared by both engines (`phase_voc.c` lines 248–252,
`psola.c` lines 261–265): `max_val` starts at 0 and takes the max of `|x|`. -/
def audioPeak (l : List ℚ) : ℚ := l.foldl (fun mv s => max mv |s|) 0

/-- Final peak normalization shared by both engines (`phase_voc.c` lines
247–259, `psola.c` lines 260–272): if the peak exceeds `0.001f`, scale every
sample by `0.9f / peak`. -/
def normalizeAudio (l : List ℚ) : List ℚ :=
  if 1/1000 < audioPeak l then l.map fun s => s * (9/10 / audioPeak l) else l

/-- Hann window value, `hanning(n, N)` of both C files:
`0.5f * (1.0f - cosf(2.0f * M_PI * n / (N - 1)))`. -/
def hanning (m : CMath) (n N : ℕ) : ℚ :=
  1/2 * (1 - m.cosR (2 * piQ * n / ((N : ℚ) - 1)))

/-- Even-index deinterleave of the Cooley–Tukey `fft` (`even[i] = x[i*2]`). -/
def fftEvens (x : List (ℚ × ℚ)) : List (ℚ × ℚ) :=
  (List.range (x.length / 2)).map fun i => x.getD (2 * i) (0, 0)

/-- Odd-index deinterleave of the Cooley–Tukey `fft` (`odd[i] = x[i*2+1]`). -/
def fftOdds (x : List (ℚ × ℚ)) : List (ℚ × ℚ) :=
  (List.range (x.length / 2)).map fun i => x.getD (2 * i + 1) (0, 0)

/-- Recursive Cooley–Tukey FFT of `phase_voc.c` lines 34–66.  Complex numbers
are pairs (real, imaginary); the twiddle factor uses `cos`/`sin` from the
`CMath` record.  The final `++ x.drop (2 * (x.length / 2))` keeps the element
the C code leaves untouched when the length is odd (never reached from the
power-of-two top-level call). -/
def fft (m : CMath) (x : List (ℚ × ℚ)) : List (ℚ × ℚ) :=
  if h : x.length ≤ 1 then x
  else
    let ev := fft m (fftEvens x)
    let od := fft m (fftOdds x)
    let half := x.length / 2
    let part1 := (List.range half).map fun k : ℕ =>
      let angle := -(2 * piQ * (k : ℚ)) / (x.length : ℚ)
      let tr := m.cosR angle * (od.getD k (0, 0)).1 - m.sinR angle * (od.getD k (0, 0)).2
      let ti := m.cosR angle * (od.getD k (0, 0)).2 + m.sinR angle * (od.getD k (0, 0)).1
      ((ev.getD k (0, 0)).1 + tr, (ev.getD k (0, 0)).2 + ti)
    let part2 := (List.range half).map fun k : ℕ =>
      let angle := -(2 * piQ * (k : ℚ)) / (x.length : ℚ)
      let tr := m.cosR angle * (od.getD k (0, 0)).1 - m.sinR angle * (od.getD k (0, 0)).2
      let ti := m.cosR angle * (od.getD k (0, 0)).2 + m.sinR angle * (od.getD k (0, 0)).1
      ((ev.getD k (0, 0)).1 - tr, (ev.getD k (0, 0)).2 - ti)
    part1 ++ part2 ++ x.drop (2 * half)
termination_by x.length
decreasing_by
  · simp only [fftEvens, List.length_map, List.length_range]
    omega
  · simp only [fftOdds, List.length_map, List.length_range]
    omega

/-- Inverse FFT of `phase_voc.c` lines 69–83: conjugate, forward FFT,
conjugate and scale by `1/N`. -/
def ifft (m : CMath) (x : List (ℚ × ℚ)) : List (ℚ × ℚ) :=
  (fft m (x.map fun c => (c.1, -c.2))).map fun c =>
    (c.1 / (x.length : ℚ), -c.2 / (x.length : ℚ))

/-- Number of frames, `phase_voc.c` line 143:
`int num_frames = (input->length - FFT_SIZE) / analysis_hop;`
(C `int` division truncates toward zero). -/
def pvNumFrames (len : ℕ) : ℤ := Int.tdiv ((len : ℤ) - 2048) 512

/-- Mutable state threaded through the phase-vocoder frame loop: the
`last_phase`, `sum_phase` and `fft_out` arrays persist across frames
(`fft_out` is `malloc`ed without initialization; it is modelled as zeros),
together with the stretched scratch output and `output_pos`. -/
structure PVState where
  lastPhase : List ℚ
  sumPhase : List ℚ
  fftOutBuf : List (ℚ × ℚ)
  tempOut : List ℚ
  outputPos : ℕ

/-- Initial frame-loop state (`calloc` zeros for phases and scratch). -/
def pvInitState (stretched : ℕ) : PVState :=
  ⟨List.replicate 2048 0, List.replicate 2048 0, List.replicate 2048 (0, 0),
   List.replicate stretched 0, 0⟩

/-- One iteration of the frame loop, `phase_voc.c` lines 147–214.  The two
C `break`s are modelled as a state-preserving skip: both break conditions are
monotone in `frame` (`input_pos` grows with `frame`, and `output_pos` is
unchanged once a skip happens), so skipping every remaining frame is
extensionally the same as breaking out of the loop. -/
def pvFrameStep (m : CMath) (inputData : List ℚ) (len stretched synthesisHop : ℕ)
    (window : List ℚ) (st : PVState) (frame : ℕ) : PVState :=
  let inputPos := frame * 512
  if len < inputPos + 2048 ∨ stretched < st.outputPos + 2048 then st
  else
    let sp := fft m ((List.range 2048).map fun i =>
      (inputData.getD (inputPos + i) 0 * window.getD i 0, (0 : ℚ)))
    let mags := sp.map fun c => m.sqrtR (c.1 * c.1 + c.2 * c.2)
    let phs := sp.map fun c => m.atan2R c.2 c.1
    let trueFreqAt : ℕ → ℚ := fun i =>
      2 * piQ * i / 2048 +
        wrap_phase (wrap_phase (phs.getD i 0 - st.lastPhase.getD i 0) -
          2 * piQ * i * 512 / 2048) / 512
    let newSumAt : ℕ → ℚ := fun i =>
      st.sumPhase.getD i 0 + trueFreqAt i * synthesisHop
    let lastPhase2 := (List.range 2048).map fun i =>
      if i < 1024 then phs.getD i 0 else st.lastPhase.getD i 0
    let sumPhase2 := (List.range 2048).map fun i =>
      if i < 1024 then newSumAt i else st.sumPhase.getD i 0
    let arr1 := (List.range 2048).map fun i =>
      if i < 1024 then
        (mags.getD i 0 * m.cosR (newSumAt i), mags.getD i 0 * m.sinR (newSumAt i))
      else st.fftOutBuf.getD i (0, 0)
    let arr2 := (List.range 2048).map fun i =>
      if i < 1024 then arr1.getD i (0, 0)
      else ((arr1.getD (2048 - i) (0, 0)).1, -(arr1.getD (2048 - i) (0, 0)).2)
    let td := ifft m arr2
    let tempOut2 := (List.range 2048).foldl (fun acc i =>
      if st.outputPos + i < stretched then
        acc.set (st.outputPos + i)
          (acc.getD (st.outputPos + i) 0 + (td.getD i (0, 0)).1 * window.getD i 0)
      else acc) st.tempOut
    ⟨lastPhase2, sumPhase2, arr2, tempOut2, st.outputPos + synthesisHop⟩

/-- The frame loop of `phase_voc.c` lines 147–214. -/
def pvRunFrames (m : CMath) (inputData : List ℚ) (len stretched synthesisHop : ℕ)
    (window : List ℚ) : PVState :=
  (List.range (pvNumFrames len).toNat).foldl
    (pvFrameStep m inputData len stretched synthesisHop window)
    (pvInitState stretched)

/-- Linear-interpolation resampling of the stretched signal back to the input
length, `phase_voc.c` lines 231–245. -/
def pvResample (outputPos len : ℕ) (temp2 : List ℚ) : List ℚ :=
  (List.range len).map fun i : ℕ =>
    let pos := (i : ℚ) * ((outputPos : ℚ) / (len : ℚ))
    let idx := (ratTrunc pos).toNat
    let frac := pos - (idx : ℚ)
    if idx + 1 < outputPos then
      temp2.getD idx 0 * (1 - frac) + temp2.getD (idx + 1) 0 * frac
    else if idx < outputPos then temp2.getD idx 0
    else 0

/-- Pre-normalization output of `phase_vocoder_pitch_shift` (`phase_voc.c`
lines 110–245) for an already-clamped ratio: stretched-buffer sizing
(`length * r * 1.2f`), Hann window, synthesis hop `(int)(HOP_SIZE * r)`
floored at 1, the frame loop, overlap normalization by
`2.0f / OVERLAP_FACTOR`, and resampling to the original length. -/
def pvPrenorm (m : CMath) (inp : AudioBuffer) (r : ℚ) : List ℚ :=
  let stretched := (ratTrunc ((inp.length : ℚ) * r * (6/5))).toNat
  let window := (List.range 2048).map fun i => hanning m i 2048
  let synthesisHop := max 1 (ratTrunc (512 * r)).toNat
  let st := pvRunFrames m inp.data inp.length stretched synthesisHop window
  let overlapNorm : ℚ := 2 / ((2048 / 512 : ℕ) : ℚ)
  let temp2 := (List.range stretched).map fun i =>
    if i < st.outputPos then st.tempOut.getD i 0 * overlapNorm else st.tempOut.getD i 0
  pvResample st.outputPos inp.length temp2

/-- Body of `phase_vocoder_pitch_shift` (`phase_voc.c` lines 103–273) after
the initial ratio clamp: the resampled signal with final peak normalization.
The output buffer's `length` and `sample_rate` are copied from the input
(lines 226–229). -/
def phase_vocoder_core (m : CMath) (inp : AudioBuffer) (r : ℚ) : AudioBuffer :=
  ⟨normalizeAudio (pvPrenorm m inp r), inp.length, inp.sample_rate⟩

/-- `phase_vocoder_pitch_shift` (`phase_voc.c` lines 103–273): clamp the
ratio, then run the body.  The C function's only `return` hands back a
`malloc`ed buffer, so the result is always non-null (`some`). -/
def phase_vocoder_pitch_shift (inp : AudioBuffer) (r : ℚ) (m : CMath) :
    Option AudioBuffer :=
  some (phase_vocoder_core m inp (clamp_ratio r))

/-- `detect_pitch_period` from `psola.c` lines 56–85: normalized
autocorrelation over lags `[32, search_length)`; returns the best lag if its
correlation exceeds `0.3f`, else `0`.  The `sample_rate` parameter is unused,
as in the C. -/
def detect_pitch_period (data : List ℚ) (start len rate : ℕ) : ℚ :=
  if len ≤ start + 2048 then 0
  else
    let searchLen := if len - start < 2048 then len - start else 2048
    let best := (List.range (searchLen - 32)).foldl (fun acc j =>
      let lag := 32 + j
      let ce := (List.range (searchLen - lag)).foldl (fun p i =>
        (p.1 + data.getD (start + i) 0 * data.getD (start + i + lag) 0,
         p.2 + data.getD (start + i) 0 * data.getD (start + i) 0)) ((0 : ℚ), (0 : ℚ))
      if 0 < ce.2 then
        if acc.1 < ce.1 / ce.2 then (ce.1 / ce.2, lag) else acc
      else acc) ((0 : ℚ), (32 : ℕ))
    if 3/10 < best.1 then (best.2 : ℚ) else 0

/-- The mark-detection loop of `detect_pitch_marks` (`psola.c` lines 91–106).
Each pass advances `position` by at least 32 (a detected period is a lag
`≥ MIN_PERIOD = 32`; the fallback advance is 200), so `len + 1` passes always
suffice and the loop exits through its `position < length` guard. -/
def detectMarksLoop (data : List ℚ) (len rate : ℕ) :
    ℕ → ℕ → List ℕ → List ℕ
  | 0, _, marks => marks
  | fuel + 1, position, marks =>
    if position < len then
      let period := detect_pitch_period data position len rate
      let position2 :=
        if 0 < period ∧ period < 2048 then position + (ratTrunc period).toNat
        else position + 200
      let marks2 := if position2 < len then marks ++ [position2] else marks
      detectMarksLoop data len rate fuel position2 marks2
    else marks

/-- `detect_pitch_marks` from `psola.c` lines 88–109: mark 0 is pushed before
the loop. -/
def detect_pitch_marks (audio : AudioBuffer) : List ℕ :=
  detectMarksLoop audio.data audio.length audio.sample_rate (audio.length + 1) 0 [0]

/-- C `abs` of the difference of two nonnegative ints. -/
def natAbsDiff (a b : ℕ) : ℕ := ((a : ℤ) - (b : ℤ)).natAbs

/-- Closest-input-mark search of `psola.c` lines 222–231: index 0 seeds the
minimum, then indices `1 .. count-1` are scanned with a strict `<` update. -/
def psolaClosestIdx (marks : List ℕ) (outMark : ℕ) : ℕ :=
  ((List.range (marks.length - 1)).foldl (fun acc j0 =>
    let j := j0 + 1
    let d := natAbsDiff (marks.getD j 0) outMark
    if d < acc.1 then (d, j) else acc)
    (natAbsDiff (marks.getD 0 0) outMark, 0)).2

/-- `extract_grain` from `psola.c` lines 112–124: Hann-windowed copy centered
on `center`, zero outside the input bounds. -/
def extract_grain (input : List ℚ) (inputLen : ℕ) (center gsize : ℕ) (m : CMath) :
    List ℚ :=
  (List.range gsize).map fun i : ℕ =>
    let pos : ℤ := (center : ℤ) - ((gsize / 2 : ℕ) : ℤ) + (i : ℤ)
    if 0 ≤ pos ∧ pos < (inputLen : ℤ) then
      input.getD pos.toNat 0 * hanning m i gsize
    else 0

/-- `overlap_add` from `psola.c` lines 127–137: bounds-checked accumulate. -/
def overlap_add (output grain : List ℚ) (center gsize outLen : ℕ) : List ℚ :=
  (List.range gsize).foldl (fun acc (i : ℕ) =>
    let pos : ℤ := (center : ℤ) - ((gsize / 2 : ℕ) : ℤ) + (i : ℤ)
    if 0 ≤ pos ∧ pos < (outLen : ℤ) then
      acc.set pos.toNat (acc.getD pos.toNat 0 + grain.getD i 0)
    else acc) output

/-- Output-mark generation loop of `psola.c` lines 174–194.  Each pass
advances `out_pos` by `out_period ≥ 20`, so `len + 1` passes always suffice
and the loop exits through its own guard. -/
def psolaOutMarksLoop (periods : List ℕ) (count len : ℕ) (r : ℚ) :
    ℕ → ℕ → ℕ → List ℕ → List ℕ
  | 0, _, _, outMarks => outMarks
  | fuel + 1, outPos, inIdx, outMarks =>
    if outPos < len ∧ inIdx < count - 1 then
      let outPeriod := max 20 (ratTrunc ((periods.getD inIdx 0 : ℕ) / r)).toNat
      let outPos2 := outPos + outPeriod
      let outMarks2 := if outPos2 < len then outMarks ++ [outPos2] else outMarks
      let inIdx2 := inIdx + 1
      let inIdx3 := if count - 1 ≤ inIdx2 ∧ outPos2 < len then count - 2 else inIdx2
      psolaOutMarksLoop periods count len r fuel outPos2 inIdx3 outMarks2
    else outMarks

/-- One grain of the PSOLA synthesis loop, `psola.c` lines 218–256: find the
closest input mark, bound-check both marks, derive the local grain size from
the local period, extract the grain at the input mark and overlap-add it at
the output mark. -/
def psolaSynthStep (m : CMath) (inp : AudioBuffer) (marks : List ℕ)
    (grainSize : ℕ) (acc : List ℚ) (outMark : ℕ) : List ℚ :=
  let ci := psolaClosestIdx marks outMark
  let inMark := marks.getD ci 0
  if inMark < inp.length ∧ outMark < inp.length then
    let lgs :=
      if ci < marks.length - 1 then
        let lp := marks.getD (ci + 1) 0 - inMark
        if 20 < lp ∧ lp < 2048 then min (lp * 2) grainSize else grainSize
      else grainSize
    overlap_add acc (extract_grain inp.data inp.length inMark lgs m) outMark lgs
      inp.length
  else acc

/-- Body of `psola_pitch_shift` (`psola.c` lines 140–282) for the case of at
least two pitch marks: periods between marks, their average, the output-mark
sequence, grain size `avg*2` clamped to `[64, 4096]`, grain-by-grain
synthesis into a `calloc`ed output of the input's length, and final peak
normalization.  Output `length` and `sample_rate` are copied from the input
(lines 199–202). -/
def psolaPrenorm (m : CMath) (inp : AudioBuffer) (r : ℚ) : List ℚ :=
  let marks := detect_pitch_marks inp
  let periods := (List.range (marks.length - 1)).map fun i =>
    marks.getD (i + 1) 0 - marks.getD i 0
  let avgPeriod := periods.sum / (marks.length - 1)
  let outMarks := psolaOutMarksLoop periods marks.length inp.length r
    (inp.length + 1) 0 0 [0]
  let grainSize := min 4096 (max 64 (avgPeriod * 2))
  outMarks.foldl (psolaSynthStep m inp marks grainSize)
    (List.replicate inp.length 0)

/-- Output buffer of the PSOLA body: peak-normalized synthesis with `length`
and `sample_rate` copied from the input (`psola.c` lines 199–202, 260–272). -/
def psola_core (m : CMath) (inp : AudioBuffer) (r : ℚ) : AudioBuffer :=
  ⟨normalizeAudio (psolaPrenorm m inp r), inp.length, inp.sample_rate⟩

/-- `psola_pitch_shift` (`psola.c` lines 140–282): clamp the ratio, detect
pitch marks, return null (`none`) when fewer than two marks were found
(lines 151–155), otherwise run the synthesis body.  Mark detection does not
depend on the ratio, so detecting before or after the clamp is equivalent. -/
def psola_pitch_shift (inp : AudioBuffer) (r : ℚ) (m : CMath) :
    Option AudioBuffer :=
  if (detect_pitch_marks inp).length < 2 then none
  else some (psola_core m inp (clamp_ratio r))

/-- Little-endian byte pair of a 16-bit value. -/
def le16 (n : ℕ) : List ℕ := [n % 256, n / 256 % 256]

/-- Little-endian byte quadruple of a 32-bit value. -/
def le32 (n : ℕ) : List ℕ :=
  [n % 256, n / 256 % 256, n / 65536 % 256, n / 16777216 % 256]

/-- Little-endian 16-bit read from a byte stream (missing bytes read as 0). -/
def rd16 (b : List ℕ) (off : ℕ) : ℕ := b.getD off 0 + 256 * b.getD (off + 1) 0

/-- Little-endian 32-bit read from a byte stream (missing bytes read as 0). -/
def rd32 (b : List ℕ) (off : ℕ) : ℕ :=
  b.getD off 0 + 256 * b.getD (off + 1) 0 + 65536 * b.getD (off + 2) 0 +
    16777216 * b.getD (off + 3) 0

/-- `wav_header` from `helloworld.c` lines 143–164, byte for byte: `&255` is
written `% 256`, `>> 8k` is written `/ 2^(8k)`, and the `uint32_t`/`uint16_t`
intermediate values wrap modulo `2^32`/`2^16`.  Note `h[23]` is the literal 0
the C writes (not the channel high byte). -/
def wav_header (nsamples fs bits ch : ℕ) : List ℕ :=
  let byteRate := fs * ch * (bits / 8) % 4294967296
  let blockAlign := ch * (bits / 8) % 65536
  let dataSize := nsamples * blockAlign % 4294967296
  let riffSize := (36 + dataSize) % 4294967296
  [82, 73, 70, 70,
   riffSize % 256, riffSize / 256 % 256, riffSize / 65536 % 256, riffSize / 16777216 % 256,
   87, 65, 86, 69,
   102, 109, 116, 32,
   16, 0, 0, 0,
   1, 0,
   ch % 256, 0,
   fs % 256, fs / 256 % 256, fs / 65536 % 256, fs / 16777216 % 256,
   byteRate % 256, byteRate / 256 % 256, byteRate / 65536 % 256, byteRate / 16777216 % 256,
   blockAlign % 256, blockAlign / 256 % 256,
   bits % 256, bits / 256 % 256,
   100, 97, 116, 97,
   dataSize % 256, dataSize / 256 % 256, dataSize / 65536 % 256, dataSize / 16777216 % 256]

/-- `write_wav_file` from `phase_voc.c` lines 409–445 as the byte stream it
writes: 44-byte header (format tag 3 = IEEE float, mono, 32 bits) followed by
the `audio->length` samples of `audio->data`, each serialized by the abstract
4-byte float encoder. -/
def write_wav_file (audio : AudioBuffer) (f32enc : ℚ → List ℕ) : List ℕ :=
  [82, 73, 70, 70] ++ le32 (36 + audio.length * 4) ++ [87, 65, 86, 69] ++
  [102, 109, 116, 32] ++ le32 16 ++ le16 3 ++ le16 1 ++
  le32 audio.sample_rate ++ le32 (audio.sample_rate * 4) ++ le16 4 ++ le16 32 ++
  [100, 97, 116, 97] ++ le32 (audio.length * 4) ++
  (audio.data.take audio.length).flatMap f32enc

/-- The chunk-scan loop of `read_wav_file` (`phase_voc.c` lines 336–350):
read a 4-byte id and 4-byte size, stop at `data`, else skip the chunk.  Each
pass consumes at least 8 bytes, so `length + 1` passes always suffice; a
stream too short for another id models the failing `fread` (returns `none`,
as the C returns NULL at lines 346–350). -/
def findDataChunk : ℕ → List ℕ → Option (ℕ × List ℕ)
  | 0, _ => none
  | fuel + 1, b =>
    if b.length < 4 then none
    else if b.take 4 = [100, 97, 116, 97] then some (rd32 b 4, b.drop 8)
    else findDataChunk fuel (b.drop (8 + rd32 b 4))

/-- Little-endian signed 16-bit decode (two's complement), as reading an
`int16_t` from memory does. -/
def decode16 (b0 b1 : ℕ) : ℤ :=
  let x := (b0 + 256 * b1) % 65536
  if x < 32768 then (x : ℤ) else (x : ℤ) - 65536

/-- `read_wav_file` from `phase_voc.c` lines 286–406: check the RIFF/WAVE
magics, read the fmt fields at their fixed offsets (the C reads them
sequentially and never checks the `fmt ` tag), skip any extra fmt bytes, scan
for the `data` chunk, then convert: 16-bit PCM mono divides by 32768, stereo
averages via `/ 65536`; 32-bit float is decoded verbatim, stereo averaged;
any other format yields NULL. -/
def read_wav_file (bytes : List ℕ) (f32dec : List ℕ → ℚ) : Option AudioBuffer :=
  if bytes.getD 0 0 = 82 ∧ bytes.getD 1 0 = 73 ∧ bytes.getD 2 0 = 70 ∧
     bytes.getD 3 0 = 70 ∧ bytes.getD 8 0 = 87 ∧ bytes.getD 9 0 = 65 ∧
     bytes.getD 10 0 = 86 ∧ bytes.getD 11 0 = 69 then
    let fmtSize := rd32 bytes 16
    let audioFormat := rd16 bytes 20
    let numChannels := rd16 bytes 22
    let sampleRate := rd32 bytes 24
    let bits := rd16 bytes 34
    match findDataChunk (bytes.length + 1)
      (bytes.drop (36 + (if 16 < fmtSize then fmtSize - 16 else 0))) with
    | none => none
    | some (chunkSize, payload) =>
      let num := chunkSize / (bits / 8) / numChannels
      if audioFormat = 1 ∧ bits = 16 then
        some ⟨(List.range num).map fun i =>
          if numChannels = 2 then
            ((decode16 (payload.getD (4*i) 0) (payload.getD (4*i+1) 0) : ℚ) +
             (decode16 (payload.getD (4*i+2) 0) (payload.getD (4*i+3) 0) : ℚ)) / 65536
          else (decode16 (payload.getD (2*i) 0) (payload.getD (2*i+1) 0) : ℚ) / 32768,
          num, sampleRate⟩
      else if audioFormat = 3 ∧ bits = 32 then
        some ⟨(List.range num).map fun i =>
          if numChannels = 2 then
            (f32dec ((payload.drop (8*i)).take 4) +
             f32dec ((payload.drop (8*i+4)).take 4)) / 2
          else f32dec ((payload.drop (4*i)).take 4),
          num, sampleRate⟩
      else none
  else none

/-- Sample clamping of `save_wav_to_sd` (`helloworld.c` lines 549–550):
`if (sample > 1.0f) sample = 1.0f; if (sample < -1.0f) sample = -1.0f;`. -/
def clampSample (s : ℚ) : ℚ :=
  let s1 := if 1 < s then 1 else s
  if s1 < -1 then -1 else s1

/-- Float-to-`int16_t` conversion of `save_wav_to_sd` (`helloworld.c` line
551): `(int16_t)(sample * 32767.0f)` after clamping (C cast truncates). -/
def pcm16_of_sample (s : ℚ) : ℤ := ratTrunc (clampSample s * 32767)

/-- Little-endian two's-complement byte pair of an `int16_t` value. -/
def enc16 (v : ℤ) : List ℕ := [(v % 65536).toNat % 256, (v % 65536).toNat / 256]

/-- `save_wav_to_sd` from `helloworld.c` lines 500–576 as the byte stream it
writes: the 44-byte `wav_header` (16-bit PCM, mono) followed by the converted
samples (the C writes them in 1024-sample chunks; the bytes are the same). -/
def save_wav_to_sd (audio : AudioBuffer) : List ℕ :=
  wav_header audio.length audio.sample_rate 16 1 ++
  (audio.data.take audio.length).flatMap fun s => enc16 (pcm16_of_sample s)

/-- `load_wav_from_sd` from `helloworld.c` lines 396–497: read the 44-byte
header (a shorter stream fails like the short `f_read`), check the RIFF/WAVE
magics and 16-bit depth, take the sample count from the header's data size,
and convert each `int16_t` sample by `/ 32768.0f`. -/
def load_wav_from_sd (bytes : List ℕ) : Option AudioBuffer :=
  if bytes.length < 44 then none
  else if bytes.getD 0 0 = 82 ∧ bytes.getD 1 0 = 73 ∧ bytes.getD 2 0 = 70 ∧
     bytes.getD 3 0 = 70 ∧ bytes.getD 8 0 = 87 ∧ bytes.getD 9 0 = 65 ∧
     bytes.getD 10 0 = 86 ∧ bytes.getD 11 0 = 69 then
    if rd16 bytes 34 = 16 then
      some ⟨(List.range (rd32 bytes 40 / 2)).map fun i =>
        (decode16 ((bytes.drop 44).getD (2*i) 0) ((bytes.drop 44).getD (2*i+1) 0) : ℚ)
          / 32768,
        rd32 bytes 40 / 2, rd32 bytes 24⟩
    else none
  else none

/-- Descending-octave scan of `find_closest_target_frequency`
(`helloworld.c` lines 106–117): first valid MIDI recurrence of the pitch
class whose frequency is strictly below the recorded frequency; 0 if none. -/
def scanDownOct (noteFreq : ℤ → ℚ) (cls : ℤ) (recorded : ℚ) : List ℤ → ℚ
  | [] => 0
  | o :: rest =>
    let midi := cls + o * 12
    if 12 ≤ midi ∧ midi ≤ 108 then
      if noteFreq midi < recorded then noteFreq midi
      else scanDownOct noteFreq cls recorded rest
    else scanDownOct noteFreq cls recorded rest

/-- Ascending-octave scan of `find_closest_target_frequency`
(`helloworld.c` lines 118–130): first valid MIDI recurrence of the pitch
class whose frequency is strictly above the recorded frequency; 0 if none. -/
def scanUpOct (noteFreq : ℤ → ℚ) (cls : ℤ) (recorded : ℚ) : List ℤ → ℚ
  | [] => 0
  | o :: rest =>
    let midi := cls + o * 12
    if 12 ≤ midi ∧ midi ≤ 108 then
      if recorded < noteFreq midi then noteFreq midi
      else scanUpOct noteFreq cls recorded rest
    else scanUpOct noteFreq cls recorded rest

/-- `find_closest_target_frequency` from `helloworld.c` lines 100–133,
parameterized over `noteFreq`, the model of `get_note_frequency` (lines
84–89, `440 * 2^((midi-69)/12)` — irrational, hence abstract here; the
theorems only use that it is strictly monotone and positive on the MIDI
range, which the real function is).  `recorded > reference` scans octaves 8
down to 1; otherwise octaves 1 up to 8. -/
def find_closest_target_frequency (noteFreq : ℤ → ℚ) (recorded : ℚ) (cls : ℤ)
    (refFreq : ℚ) : ℚ :=
  if refFreq < recorded then scanDownOct noteFreq cls recorded [8, 7, 6, 5, 4, 3, 2, 1]
  else scanUpOct noteFreq cls recorded [1, 2, 3, 4, 5, 6, 7, 8]

/-- Ratio computation of `main` (`helloworld.c` lines 774–825): the ratio is
`target / recorded` when a positive target frequency was found, and is
explicitly set to `1.0f` otherwise. -/
def compute_shift_ratio (noteFreq : ℤ → ℚ) (recorded : ℚ) (cls : ℤ)
    (refFreq : ℚ) : ℚ :=
  if 0 < find_closest_target_frequency noteFreq recorded cls refFreq then
    find_closest_target_frequency noteFreq recorded cls refFreq / recorded
  else 1

/-- The 44-byte canonical WAV header as the specification words it: magics,
`le32 (36 + dataBytes)`, fmt size 16, format tag, channels, sample rate,
byte rate `= fs * ch * bytesPerSample`, block align `= ch * bytesPerSample`,
bits per sample, and the data byte count. -/
def canonicalHeader (fmtTag ch fs bits dataBytes : ℕ) : List ℕ :=
  [82, 73, 70, 70] ++ le32 (36 + dataBytes) ++ [87, 65, 86, 69] ++
  [102, 109, 116, 32] ++ le32 16 ++ le16 fmtTag ++ le16 ch ++ le32 fs ++
  le32 (fs * ch * (bits / 8)) ++ le16 (ch * (bits / 8)) ++ le16 bits ++
  [100, 97, 116, 97] ++ le32 dataBytes

/-- All-zero stand-ins for the libm functions, used by concrete witnesses. -/
def zeroMath : CMath := ⟨fun _ => 0, fun _ => 0, fun _ _ => 0, fun _ => 0⟩

/-- A 201-sample silent buffer: long enough for pitch-mark detection to find
two marks (0 and the 200-sample fallback advance), short enough that the
phase vocoder processes zero frames. -/
def wbuf201 : AudioBuffer := ⟨List.replicate 201 0, 201, 40⟩

/-- The empty buffer: pitch-mark detection finds only the initial mark 0. -/
def wbufEmpty : AudioBuffer := ⟨[], 0, 40⟩

/-- One-sample buffer holding `65535/65536`, the 16-bit round-trip
counterexample input. -/
def cexBuf : AudioBuffer := ⟨[65535/65536], 1, 40⟩

/-- One-sample zero buffer for the round-trip witness. -/
def rtBuf : AudioBuffer := ⟨[0], 1, 40⟩

/-- Trivial 4-byte float encoder used by witnesses (only ever applied to 0). -/
def fEnc0 : ℚ → List ℕ := fun _ => [0, 0, 0, 0]

/-- Trivial float decoder matching `fEnc0` on the payloads that occur. -/
def fDec0 : List ℕ → ℚ := fun _ => 0

/-!  ## Theorems  -/

theorem piQ_gt_three : 3 < piQ := by norm_num [piQ]

theorem piQ_lt_four : piQ < 4 := by norm_num [piQ]

theorem piQ_pos : 0 < piQ := lt_trans (by norm_num) piQ_gt_three

theorem ratTrunc_eq_floor (q : ℚ) (h : 0 ≤ q) : ratTrunc q = ⌊q⌋ := by
  rw [ratTrunc, if_pos (Rat.num_nonneg.2 h), Rat.floor_def]
  rw [Int.ofNat_div, Int.toNat_of_nonneg (Rat.num_nonneg.2 h)]
  exact Int.tdiv_eq_ediv (Rat.num_nonneg.2 h) (Int.ofNat_nonneg _)

theorem ratTrunc_eq_ceil (q : ℚ) (h : q ≤ 0) : ratTrunc q = ⌈q⌉ := by
  rcases lt_or_eq_of_le h with hlt | heq
  · have hnum : q.num < 0 := Rat.num_neg.2 hlt
    have hceil : ⌈q⌉ = -⌊-q⌋ := by rw [Int.floor_neg]; ring
    rw [ratTrunc, if_neg (by omega), hceil, Rat.floor_def]
    have hn : (-q).num = -q.num := Rat.neg_num q
    have hd : (-q).den = q.den := Rat.neg_den q
    rw [hn, hd, Int.ofNat_div, Int.toNat_of_nonneg (by omega)]
    rw [Int.tdiv_eq_ediv (by omega) (Int.ofNat_nonneg _)]
  · subst heq
    simp [ratTrunc]

theorem ratTrunc_nonneg (q : ℚ) (h : 0 ≤ q) : 0 ≤ ratTrunc q := by
  rw [ratTrunc_eq_floor q h]
  exact Int.floor_nonneg.2 h

theorem ratTrunc_nonpos (q : ℚ) (h : q ≤ 0) : ratTrunc q ≤ 0 := by
  rw [ratTrunc_eq_ceil q h]
  exact Int.ceil_le.2 (by exact_mod_cast h)

theorem ratTrunc_le_self (q : ℚ) (h : 0 ≤ q) : (ratTrunc q : ℚ) ≤ q := by
  rw [ratTrunc_eq_floor q h]; exact Int.floor_le q

theorem lt_ratTrunc_add_one (q : ℚ) (h : 0 ≤ q) : q < (ratTrunc q : ℚ) + 1 := by
  rw [ratTrunc_eq_floor q h]; exact Int.lt_floor_add_one q

theorem le_ratTrunc_of_nonpos (q : ℚ) (h : q ≤ 0) : q ≤ (ratTrunc q : ℚ) := by
  rw [ratTrunc_eq_ceil q h]; exact Int.le_ceil q

theorem ratTrunc_sub_one_lt (q : ℚ) (h : q ≤ 0) : (ratTrunc q : ℚ) - 1 < q := by
  rw [ratTrunc_eq_ceil q h]
  have := Int.ceil_lt_add_one q
  linarith

/-- A nonnegative rational is at most its numerator (denominator is ≥ 1). -/
theorem rat_le_num_toNat (q : ℚ) (h : 0 ≤ q) : q ≤ ((q.num.toNat : ℕ) : ℚ) := by
  have hden1 : (1 : ℚ) ≤ (q.den : ℚ) := by
    exact_mod_cast q.den_pos
  have hd0 : ((q.den : ℚ)) ≠ 0 := by positivity
  have hqn : (q.num : ℚ) = q * (q.den : ℚ) := (div_eq_iff hd0).1 (Rat.num_div_den q)
  have hcast : ((q.num.toNat : ℕ) : ℚ) = (q.num : ℚ) := by
    exact_mod_cast congrArg (fun z : ℤ => (z : ℚ)) (Int.toNat_of_nonneg (Rat.num_nonneg.2 h))
  rw [hcast, hqn]
  nlinarith

theorem fuel_suff_wrap (p : ℚ) : p ≤ piQ + 2 * piQ * ((wrapFuel p : ℕ) : ℚ) := by
  rcases le_or_lt p piQ with h | h
  · have hx : (0 : ℚ) ≤ ((wrapFuel p : ℕ) : ℚ) := by positivity
    nlinarith [piQ_pos]
  · have hp0 : (0 : ℚ) ≤ p := le_trans (le_of_lt piQ_pos) (le_of_lt h)
    have hfl : ratTrunc p = ⌊p⌋ := ratTrunc_eq_floor p hp0
    have hf0 : 0 ≤ ⌊p⌋ := Int.floor_nonneg.2 hp0
    have ht : ((⌊p⌋.toNat : ℕ) : ℚ) = ((⌊p⌋ : ℤ) : ℚ) := by
      exact_mod_cast congrArg (fun z : ℤ => (z : ℚ)) (Int.toNat_of_nonneg hf0)
    have hcst : ((wrapFuel p : ℕ) : ℚ) = (⌊p⌋ : ℚ) + 1 := by
      rw [wrapFuel, hfl]
      push_cast
      rw [ht]
    have hlt := Int.lt_floor_add_one p
    rw [hcst]
    have hfq : (0 : ℚ) ≤ (⌊p⌋ : ℚ) := by exact_mod_cast hf0
    nlinarith [piQ_gt_three]

theorem wrapDown_le : ∀ (fuel : ℕ) (p : ℚ),
    p ≤ piQ + 2 * piQ * (fuel : ℚ) → wrapDown fuel p ≤ piQ := by
  intro fuel
  induction fuel with
  | zero => intro p h; simpa [wrapDown] using h
  | succ f ih =>
    intro p h
    rw [wrapDown]
    split
    · apply ih
      push_cast at h ⊢
      linarith
    · linarith [not_lt.1 (by assumption : ¬ piQ < p)]

theorem wrapDown_diff : ∀ (fuel : ℕ) (p : ℚ),
    ∃ k : ℤ, wrapDown fuel p = p - 2 * piQ * (k : ℚ) := by
  intro fuel
  induction fuel with
  | zero => intro p; exact ⟨0, by simp [wrapDown]⟩
  | succ f ih =>
    intro p
    rw [wrapDown]
    split
    · obtain ⟨k, hk⟩ := ih (p - 2 * piQ)
      exact ⟨k + 1, by rw [hk]; push_cast; ring⟩
    · exact ⟨0, by simp⟩

theorem wrapUp_mem : ∀ (fuel : ℕ) (q : ℚ), q ≤ piQ →
    -q ≤ piQ + 2 * piQ * (fuel : ℚ) →
    -piQ ≤ wrapUp fuel q ∧ wrapUp fuel q ≤ piQ := by
  intro fuel
  induction fuel with
  | zero =>
    intro q hq h
    constructor
    · simp only [wrapUp]; push_cast at h; linarith
    · simpa [wrapUp] using hq
  | succ f ih =>
    intro q hq h
    rw [wrapUp]
    split
    · rename_i hlt
      apply ih
      · linarith [piQ_pos]
      · push_cast at h ⊢
        linarith
    · rename_i hge
      exact ⟨by linarith [not_lt.1 hge], hq⟩

theorem wrapUp_diff : ∀ (fuel : ℕ) (q : ℚ),
    ∃ k : ℤ, wrapUp fuel q = q + 2 * piQ * (k : ℚ) := by
  intro fuel
  induction fuel with
  | zero => intro q; exact ⟨0, by simp [wrapUp]⟩
  | succ f ih =>
    intro q
    rw [wrapUp]
    split
    · obtain ⟨k, hk⟩ := ih (q + 2 * piQ)
      exact ⟨k + 1, by rw [hk]; push_cast; ring⟩
    · exact ⟨0, by simp⟩

theorem fuel_suff_wrap_cast (p : ℚ) : p ≤ piQ + 2 * piQ * ((wrapFuel p : ℕ) : ℚ) :=
  fuel_suff_wrap p

/-- C5 (amended): for every input, `wrap_phase` returns a value in the CLOSED
interval `[-π, π]` (the lower endpoint is attained, see
`wrap_phase_not_above_neg_pi`), and the return value differs from the input
by an integer multiple of `2π`. -/
theorem wrap_phase_range_and_shift (p : ℚ) :
    (-piQ ≤ wrap_phase p ∧ wrap_phase p ≤ piQ) ∧
    ∃ k : ℤ, wrap_phase p = p + 2 * piQ * (k : ℚ) := by
  have hq : wrapDown (wrapFuel p) p ≤ piQ :=
    wrapDown_le (wrapFuel p) p (fuel_suff_wrap p)
  have hmem := wrapUp_mem (wrapFuel (-(wrapDown (wrapFuel p) p)))
    (wrapDown (wrapFuel p) p) hq (fuel_suff_wrap (-(wrapDown (wrapFuel p) p)))
  constructor
  · rw [wrap_phase]
    exact hmem
  · obtain ⟨k1, hk1⟩ := wrapDown_diff (wrapFuel p) p
    obtain ⟨k2, hk2⟩ := wrapUp_diff (wrapFuel (-(wrapDown (wrapFuel p) p)))
      (wrapDown (wrapFuel p) p)
    refine ⟨k2 - k1, ?_⟩
    rw [wrap_phase, hk2, hk1]
    push_cast
    ring

theorem wrapDown_of_le (fuel : ℕ) (p : ℚ) (h : p ≤ piQ) : wrapDown fuel p = p := by
  cases fuel with
  | zero => rfl
  | succ f => rw [wrapDown, if_neg (not_lt.2 h)]

theorem wrapUp_of_ge (fuel : ℕ) (q : ℚ) (h : -piQ ≤ q) : wrapUp fuel q = q := by
  cases fuel with
  | zero => rfl
  | succ f => rw [wrapUp, if_neg (not_lt.2 h)]

/-- C5 counterexample: at the exact input `-π` the wrapped phase is `-π`
itself, which is NOT strictly greater than `-π`; the range claimed by the
specification, the half-open interval `(-π, π]`, is therefore wrong (the C
code's own comment says `[-pi, pi]`, the closed interval). -/
theorem wrap_phase_not_above_neg_pi :
    wrap_phase (-piQ) = -piQ ∧ ¬ (-piQ < wrap_phase (-piQ)) := by
  have hd : wrapDown (wrapFuel (-piQ)) (-piQ) = -piQ :=
    wrapDown_of_le _ _ (by linarith [piQ_pos])
  have he : wrap_phase (-piQ) = -piQ := by
    rw [wrap_phase, hd, wrapUp_of_ge _ _ le_rfl]
  exact ⟨he, fun h => lt_irrefl _ (he ▸ h)⟩

theorem foldlPeak_init_le (l : List ℚ) :
    ∀ a : ℚ, a ≤ l.foldl (fun mv s => max mv |s|) a := by
  induction l with
  | nil => intro a; exact le_rfl
  | cons x t ih =>
    intro a
    calc a ≤ max a |x| := le_max_left _ _
      _ ≤ t.foldl (fun mv s => max mv |s|) (max a |x|) := ih _

theorem audioPeak_nonneg (l : List ℚ) : 0 ≤ audioPeak l :=
  foldlPeak_init_le l 0

theorem abs_le_foldlPeak (l : List ℚ) :
    ∀ (a : ℚ) (s : ℚ), s ∈ l → |s| ≤ l.foldl (fun mv s => max mv |s|) a := by
  induction l with
  | nil => intro a s hs; exact absurd hs (List.not_mem_nil s)
  | cons x t ih =>
    intro a s hs
    rcases List.mem_cons.1 hs with rfl | hmem
    · calc |s| ≤ max a |s| := le_max_right _ _
        _ ≤ t.foldl (fun mv s => max mv |s|) (max a |s|) := foldlPeak_init_le t _
    · exact ih _ s hmem

theorem abs_le_audioPeak (l : List ℚ) (s : ℚ) (h : s ∈ l) : |s| ≤ audioPeak l :=
  abs_le_foldlPeak l 0 s h

theorem foldlPeak_map_mul (c : ℚ) (hc : 0 ≤ c) (l : List ℚ) :
    ∀ a : ℚ, (l.map fun s => s * c).foldl (fun mv s => max mv |s|) (a * c) =
      l.foldl (fun mv s => max mv |s|) a * c := by
  induction l with
  | nil => intro a; rfl
  | cons x t ih =>
    intro a
    have habs : |x * c| = |x| * c := by
      rw [abs_mul, abs_of_nonneg hc]
    have hmax : max (a * c) (|x| * c) = max a |x| * c :=
      (max_mul_of_nonneg _ _ hc).symm
    simp only [List.map_cons, List.foldl_cons, habs, hmax]
    exact ih _

theorem audioPeak_map_mul (c : ℚ) (hc : 0 ≤ c) (l : List ℚ) :
    audioPeak (l.map fun s => s * c) = audioPeak l * c := by
  have := foldlPeak_map_mul c hc l 0
  rwa [zero_mul] at this

theorem normalizeAudio_length (l : List ℚ) :
    (normalizeAudio l).length = l.length := by
  rw [normalizeAudio]
  split
  · exact List.length_map _ _
  · rfl

/-- Behaviour of the engines' shared final normalization: every sample of the
result has magnitude at most 1, and either the peak is exactly `0.9` (the
rescaled case) or every sample already had magnitude at most `0.001`. -/
theorem normalizeAudio_spec (l : List ℚ) :
    (∀ s ∈ normalizeAudio l, |s| ≤ 1) ∧
    (audioPeak (normalizeAudio l) = 9/10 ∨ ∀ s ∈ normalizeAudio l, |s| ≤ 1/1000) := by
  by_cases h : 1/1000 < audioPeak l
  · have hpos : 0 < audioPeak l := lt_trans (by norm_num) h
    have hfac : (0 : ℚ) ≤ 9/10 / audioPeak l := by positivity
    have hpk : audioPeak (normalizeAudio l) = 9/10 := by
      rw [normalizeAudio, if_pos h, audioPeak_map_mul _ hfac]
      field_simp
      ring
    refine ⟨?_, Or.inl hpk⟩
    intro s hs
    have := abs_le_audioPeak _ s hs
    rw [hpk] at this
    linarith
  · have heq : normalizeAudio l = l := by rw [normalizeAudio, if_neg h]
    have hle : audioPeak l ≤ 1/1000 := not_lt.1 h
    constructor
    · intro s hs
      rw [heq] at hs
      have := abs_le_audioPeak l s hs
      linarith
    · right
      intro s hs
      rw [heq] at hs
      have := abs_le_audioPeak l s hs
      linarith

theorem clamp_ratio_mem (r : ℚ) : 1/2 ≤ clamp_ratio r ∧ clamp_ratio r ≤ 2 := by
  simp only [clamp_ratio]
  by_cases h1 : r < 1/2
  · rw [if_pos h1, if_neg (by norm_num : ¬ (2:ℚ) < 1/2)]
    norm_num
  · rw [if_neg h1]
    by_cases h2 : 2 < r
    · rw [if_pos h2]
      norm_num
    · rw [if_neg h2]
      exact ⟨not_lt.1 h1, not_lt.1 h2⟩

theorem clamp_ratio_eq_of_mem (r : ℚ) (h1 : 1/2 ≤ r) (h2 : r ≤ 2) :
    clamp_ratio r = r := by
  simp only [clamp_ratio]
  rw [if_neg (not_lt.2 h1), if_neg (not_lt.2 h2)]

theorem clamp_ratio_idem (r : ℚ) : clamp_ratio (clamp_ratio r) = clamp_ratio r :=
  clamp_ratio_eq_of_mem _ (clamp_ratio_mem r).1 (clamp_ratio_mem r).2

theorem clamp_ratio_of_lt (r : ℚ) (h : r < 1/2) : clamp_ratio r = 1/2 := by
  simp only [clamp_ratio]
  rw [if_pos h, if_neg (by norm_num)]

theorem clamp_ratio_of_gt (r : ℚ) (h : 2 < r) : clamp_ratio r = 2 := by
  simp only [clamp_ratio]
  rw [if_neg (show ¬ r < 1/2 by linarith), if_pos h]


theorem getD_replicate_zero (n i : ℕ) : (List.replicate n (0:ℚ)).getD i 0 = 0 := by
  rw [List.getD_eq_getElem?_getD, List.getElem?_replicate]
  split <;> rfl

theorem foldl_length_invariant {β : Type} (f : List ℚ → β → List ℚ)
    (hf : ∀ a b, (f a b).length = a.length) :
    ∀ (l : List β) (a : List ℚ), (l.foldl f a).length = a.length := by
  intro l
  induction l with
  | nil => intro a; rfl
  | cons x t ih =>
    intro a
    rw [List.foldl_cons, ih, hf]

theorem foldl_getD_zero {β : Type} (f : List ℚ → β → List ℚ)
    (hf : ∀ a b, (∀ j, a.getD j 0 = 0) → ∀ j, (f a b).getD j 0 = 0) :
    ∀ (l : List β) (a : List ℚ),
      (∀ j, a.getD j 0 = 0) → ∀ j, (l.foldl f a).getD j 0 = 0 := by
  intro l
  induction l with
  | nil => intro a ha; exact ha
  | cons x t ih =>
    intro a ha
    exact ih _ (hf a x ha)

theorem overlap_add_length (acc grain : List ℚ) (c g o : ℕ) :
    (overlap_add acc grain c g o).length = acc.length := by
  rw [overlap_add]
  apply foldl_length_invariant
  intro a b
  dsimp only
  split
  · exact List.length_set a _ _
  · rfl

theorem overlap_add_getD_zero (acc grain : List ℚ) (c g o : ℕ)
    (ha : ∀ j, acc.getD j 0 = 0) (hg : ∀ i, grain.getD i 0 = 0) :
    ∀ j, (overlap_add acc grain c g o).getD j 0 = 0 := by
  rw [overlap_add]
  apply foldl_getD_zero _ _ _ _ ha
  intro a b hb j
  dsimp only
  split
  · rw [List.getD_eq_getElem?_getD, List.getElem?_set]
    split
    · split
      · simp only [Option.getD_some]
        rw [hb, hg, add_zero]
      · rfl
    · rw [← List.getD_eq_getElem?_getD]
      exact hb j
  · exact hb j

theorem extract_grain_getD_zero (n center gsize : ℕ) (m : CMath) (i : ℕ) :
    (extract_grain (List.replicate n 0) n center gsize m).getD i 0 = 0 := by
  rw [extract_grain, List.getD_eq_getElem?_getD, List.getElem?_map]
  rcases lt_or_ge i gsize with h | h
  · rw [List.getElem?_range h]
    show (if (0:ℤ) ≤ (center : ℤ) - ((gsize / 2 : ℕ) : ℤ) + (i : ℤ) ∧
        (center : ℤ) - ((gsize / 2 : ℕ) : ℤ) + (i : ℤ) < (n : ℤ) then
        (List.replicate n (0:ℚ)).getD ((center : ℤ) - ((gsize / 2 : ℕ) : ℤ) + (i : ℤ)).toNat 0 *
          hanning m i gsize
      else 0) = 0
    split
    · rw [getD_replicate_zero, zero_mul]
    · rfl
  · rw [List.getElem?_eq_none (by simpa using h)]
    rfl

theorem psolaSynthStep_length (m : CMath) (inp : AudioBuffer) (marks : List ℕ)
    (gs : ℕ) (acc : List ℚ) (om : ℕ) :
    (psolaSynthStep m inp marks gs acc om).length = acc.length := by
  rw [psolaSynthStep]
  dsimp only
  split
  · exact overlap_add_length ..
  · rfl

theorem psolaSynthStep_getD_zero (m : CMath) (inp : AudioBuffer) (marks : List ℕ)
    (gs : ℕ) (hd : inp.data = List.replicate inp.length 0) (acc : List ℚ) (om : ℕ)
    (ha : ∀ j, acc.getD j 0 = 0) :
    ∀ j, (psolaSynthStep m inp marks gs acc om).getD j 0 = 0 := by
  rw [psolaSynthStep]
  dsimp only
  split
  · intro j
    apply overlap_add_getD_zero _ _ _ _ _ ha
    intro i
    rw [hd]
    exact extract_grain_getD_zero inp.length _ _ m i
  · exact ha

theorem eq_replicate_zero_of_getD (l : List ℚ) (n : ℕ) (hlen : l.length = n)
    (h : ∀ j, l.getD j 0 = 0) : l = List.replicate n 0 := by
  rw [List.eq_replicate_iff]
  refine ⟨hlen, ?_⟩
  intro b hb
  obtain ⟨i, hi, hval⟩ := List.mem_iff_getElem.1 hb
  have h2 := h i
  rw [List.getD_eq_getElem?_getD, List.getElem?_eq_getElem hi] at h2
  simp only [Option.getD_some] at h2
  rw [← hval, h2]

theorem audioPeak_replicate_zero (n : ℕ) : audioPeak (List.replicate n 0) = 0 := by
  rw [audioPeak]
  induction n with
  | zero => rfl
  | succ k ih =>
    rw [List.replicate_succ, List.foldl_cons]
    simpa using ih

theorem normalizeAudio_replicate_zero (n : ℕ) :
    normalizeAudio (List.replicate n 0) = List.replicate n 0 := by
  rw [normalizeAudio, audioPeak_replicate_zero, if_neg (by norm_num)]

theorem pvRunFrames_zero_frames (m : CMath) (data : List ℚ)
    (len stretched hop : ℕ) (window : List ℚ)
    (h : (pvNumFrames len).toNat = 0) :
    pvRunFrames m data len stretched hop window = pvInitState stretched := by
  rw [pvRunFrames, h]
  rfl

theorem pvResample_outputPos_zero (len : ℕ) (temp2 : List ℚ) :
    pvResample 0 len temp2 = List.replicate len 0 := by
  rw [pvResample]
  rw [List.eq_replicate_iff]
  constructor
  · rw [List.length_map, List.length_range]
  · intro b hb
    obtain ⟨i, _, hval⟩ := List.mem_map.1 hb
    simp only [Nat.not_lt_zero, if_false] at hval
    exact hval.symm

theorem pvNumFrames_nonpos (len : ℕ) (h : len < 2048) : pvNumFrames len ≤ 0 := by
  rw [pvNumFrames]
  have he : ((len : ℤ) - 2048) = -((2048 : ℤ) - len) := by ring
  rw [he, Int.neg_tdiv]
  have h2 : (0 : ℤ) ≤ (2048 : ℤ) - len := by
    have : (len : ℤ) < 2048 := by exact_mod_cast h
    omega
  have := Int.tdiv_nonneg h2 (by norm_num : (0:ℤ) ≤ 512)
  omega

theorem pvPrenorm_of_short (m : CMath) (inp : AudioBuffer) (r : ℚ)
    (h : inp.length < 2048) :
    pvPrenorm m inp r = List.replicate inp.length 0 := by
  have hz : (pvNumFrames inp.length).toNat = 0 := by
    have := pvNumFrames_nonpos inp.length h
    omega
  rw [pvPrenorm]
  rw [pvRunFrames_zero_frames _ _ _ _ _ _ hz]
  exact pvResample_outputPos_zero _ _

/-- PSOLA synthesis on an all-zero input produces the all-zero buffer: every
grain extracted from silence is silent, and overlap-adding silence into the
`calloc`ed output leaves it silent.  (This holds for every ratio and every
mark sequence, without evaluating the mark detection.) -/
theorem psolaPrenorm_zero_input (m : CMath) (inp : AudioBuffer) (r : ℚ)
    (hd : inp.data = List.replicate inp.length 0) :
    psolaPrenorm m inp r = List.replicate inp.length 0 := by
  rw [psolaPrenorm]
  apply eq_replicate_zero_of_getD
  · rw [foldl_length_invariant _ (fun a b => psolaSynthStep_length m inp _ _ a b)]
    exact List.length_replicate ..
  · apply foldl_getD_zero _ (psolaSynthStep_getD_zero m inp _ _ hd)
    intro j
    exact getD_replicate_zero _ _

theorem psola_core_zero_input (m : CMath) (inp : AudioBuffer) (r : ℚ)
    (hd : inp.data = List.replicate inp.length 0) :
    psola_core m inp r =
      ⟨List.replicate inp.length 0, inp.length, inp.sample_rate⟩ := by
  rw [psola_core, psolaPrenorm_zero_input m inp r hd, normalizeAudio_replicate_zero]

theorem psola_eval_201 : psola_pitch_shift wbuf201 1 zeroMath = some wbuf201 := by
  rw [psola_pitch_shift, if_neg (by with_unfolding_all decide)]
  rw [psola_core_zero_input _ _ _ rfl]
  rfl

theorem pv_eval_201 :
    phase_vocoder_pitch_shift wbuf201 1 zeroMath = some wbuf201 := by
  rw [phase_vocoder_pitch_shift, phase_vocoder_core,
    pvPrenorm_of_short zeroMath wbuf201 (clamp_ratio 1) (by norm_num [wbuf201]),
    normalizeAudio_replicate_zero]
  rfl

/-- C1: for every input buffer and ratio in `[0.5, 2.0]`, whenever either
engine returns a buffer, that buffer's `length` field equals the input's
`length` and its `sample_rate` equals the input's `sample_rate`
(`phase_voc.c` lines 226–229, `psola.c` lines 199–202). -/
theorem engines_preserve_length_and_rate (inp : AudioBuffer) (r : ℚ) (m : CMath)
    (hr : 1/2 ≤ r ∧ r ≤ 2) :
    (∀ out, phase_vocoder_pitch_shift inp r m = some out →
      out.length = inp.length ∧ out.sample_rate = inp.sample_rate) ∧
    (∀ out, psola_pitch_shift inp r m = some out →
      out.length = inp.length ∧ out.sample_rate = inp.sample_rate) := by
  constructor
  · intro out h
    rw [phase_vocoder_pitch_shift] at h
    injection h with h
    rw [← h]
    exact ⟨rfl, rfl⟩
  · intro out h
    rw [psola_pitch_shift] at h
    by_cases hm : (detect_pitch_marks inp).length < 2
    · rw [if_pos hm] at h
      exact absurd h (by simp)
    · rw [if_neg hm] at h
      injection h with h
      rw [← h]
      exact ⟨rfl, rfl⟩

theorem engines_preserve_length_and_rate_witness :
    wbuf201.length = wbuf201.length ∧ wbuf201.sample_rate = wbuf201.sample_rate ∧
    (1:ℚ)/2 ≤ 1 ∧ (1:ℚ) ≤ 2 := by
  have h := engines_preserve_length_and_rate wbuf201 1 zeroMath (by norm_num)
  have h1 := h.1 wbuf201 pv_eval_201
  have h2 := h.2 wbuf201 psola_eval_201
  exact ⟨h1.1, h2.2, by norm_num, by norm_num⟩

/-- C3: for every input and ratio, every sample of a buffer returned by
either engine lies in `[-1, 1]`; moreover either the returned peak is exactly
`0.9` of full scale (the rescale branch was taken), or every returned sample
has magnitude at most `0.001` (`phase_voc.c` lines 247–259, `psola.c` lines
260–272). -/
theorem engines_output_bounded (inp : AudioBuffer) (r : ℚ) (m : CMath) :
    (∀ out, phase_vocoder_pitch_shift inp r m = some out →
      (∀ s ∈ out.data, |s| ≤ 1) ∧
      (audioPeak out.data = 9/10 ∨ ∀ s ∈ out.data, |s| ≤ 1/1000)) ∧
    (∀ out, psola_pitch_shift inp r m = some out →
      (∀ s ∈ out.data, |s| ≤ 1) ∧
      (audioPeak out.data = 9/10 ∨ ∀ s ∈ out.data, |s| ≤ 1/1000)) := by
  constructor
  · intro out h
    rw [phase_vocoder_pitch_shift] at h
    injection h with h
    rw [← h]
    exact normalizeAudio_spec (pvPrenorm m inp (clamp_ratio r))
  · intro out h
    rw [psola_pitch_shift] at h
    by_cases hm : (detect_pitch_marks inp).length < 2
    · rw [if_pos hm] at h
      exact absurd h (by simp)
    · rw [if_neg hm] at h
      injection h with h
      rw [← h]
      exact normalizeAudio_spec (psolaPrenorm m inp (clamp_ratio r))

theorem engines_output_bounded_witness :
    (∀ s ∈ wbuf201.data, |s| ≤ 1) ∧
    (audioPeak wbuf201.data = 9/10 ∨ ∀ s ∈ wbuf201.data, |s| ≤ 1/1000) := by
  have h := engines_output_bounded wbuf201 1 zeroMath
  exact h.2 wbuf201 psola_eval_201

/-- C4: both engines clamp the ratio to `[0.5, 2.0]` before any processing
and use the clamped value consistently for the whole call: each engine
applied to `r` equals its body applied to `clamp_ratio r`, hence equals the
engine applied to `clamp_ratio r`; a ratio below `0.5` behaves exactly as
`0.5` and one above `2.0` exactly as `2.0` (`phase_voc.c` lines 106–108,
`psola.c` lines 143–145). -/
theorem engines_clamp_ratio_consistently (inp : AudioBuffer) (r : ℚ) (m : CMath) :
    (1/2 ≤ clamp_ratio r ∧ clamp_ratio r ≤ 2) ∧
    phase_vocoder_pitch_shift inp r m = some (phase_vocoder_core m inp (clamp_ratio r)) ∧
    phase_vocoder_pitch_shift inp r m = phase_vocoder_pitch_shift inp (clamp_ratio r) m ∧
    psola_pitch_shift inp r m = psola_pitch_shift inp (clamp_ratio r) m ∧
    (r < 1/2 →
      phase_vocoder_pitch_shift inp r m = phase_vocoder_pitch_shift inp (1/2) m ∧
      psola_pitch_shift inp r m = psola_pitch_shift inp (1/2) m) ∧
    (2 < r →
      phase_vocoder_pitch_shift inp r m = phase_vocoder_pitch_shift inp 2 m ∧
      psola_pitch_shift inp r m = psola_pitch_shift inp 2 m) := by
  have hhalf : clamp_ratio (1/2 : ℚ) = 1/2 :=
    clamp_ratio_eq_of_mem _ le_rfl (by norm_num)
  have htwo : clamp_ratio (2 : ℚ) = 2 :=
    clamp_ratio_eq_of_mem _ (by norm_num) le_rfl
  refine ⟨clamp_ratio_mem r, rfl, ?_, ?_, ?_, ?_⟩
  · rw [phase_vocoder_pitch_shift, phase_vocoder_pitch_shift, clamp_ratio_idem]
  · rw [psola_pitch_shift, psola_pitch_shift, clamp_ratio_idem]
  · intro h
    constructor
    · rw [phase_vocoder_pitch_shift, phase_vocoder_pitch_shift,
        clamp_ratio_of_lt r h, hhalf]
    · rw [psola_pitch_shift, psola_pitch_shift, clamp_ratio_of_lt r h, hhalf]
  · intro h
    constructor
    · rw [phase_vocoder_pitch_shift, phase_vocoder_pitch_shift,
        clamp_ratio_of_gt r h, htwo]
    · rw [psola_pitch_shift, psola_pitch_shift, clamp_ratio_of_gt r h, htwo]

theorem engines_clamp_ratio_witness :
    (phase_vocoder_pitch_shift wbufEmpty (1/4) zeroMath =
      phase_vocoder_pitch_shift wbufEmpty (1/2) zeroMath) ∧
    (psola_pitch_shift wbufEmpty (1/4) zeroMath =
      psola_pitch_shift wbufEmpty (1/2) zeroMath) ∧
    1/2 ≤ clamp_ratio (1/4 : ℚ) ∧ clamp_ratio (1/4 : ℚ) ≤ 2 := by
  have h := engines_clamp_ratio_consistently wbufEmpty (1/4) zeroMath
  have hlt := h.2.2.2.2.1 (by norm_num)
  exact ⟨hlt.1, hlt.2, h.1.1, h.1.2⟩

/-- C6: whenever pitch-mark detection finds fewer than 2 marks, the PSOLA
engine returns the null result (`psola.c` lines 151–155) — never a partially
filled buffer.  The embedding is purely functional, so the input buffer is
untouched by construction. -/
theorem psola_few_marks_returns_none (inp : AudioBuffer) (r : ℚ) (m : CMath)
    (h : (detect_pitch_marks inp).length < 2) :
    psola_pitch_shift inp r m = none := by
  rw [psola_pitch_shift, if_pos h]

theorem psola_few_marks_returns_none_witness :
    psola_pitch_shift wbufEmpty 1 zeroMath = none :=
  psola_few_marks_returns_none wbufEmpty 1 zeroMath (by with_unfolding_all decide)

/-- C10: the phase vocoder never returns a null result; in particular for
every input shorter than the FFT size (2048) the frame count
`(length - 2048) / 512` is non-positive, no frame is processed, and the
returned buffer has the input's length and sample rate with every sample
equal to 0 (`phase_voc.c` lines 143–152, 226–259). -/
theorem pv_short_input_silent (inp : AudioBuffer) (r : ℚ) (m : CMath)
    (h : inp.length < 2048) :
    pvNumFrames inp.length ≤ 0 ∧
    phase_vocoder_pitch_shift inp r m =
      some ⟨List.replicate inp.length 0, inp.length, inp.sample_rate⟩ := by
  refine ⟨pvNumFrames_nonpos inp.length h, ?_⟩
  rw [phase_vocoder_pitch_shift, phase_vocoder_core,
    pvPrenorm_of_short m inp (clamp_ratio r) h, normalizeAudio_replicate_zero]

theorem pv_short_input_silent_witness :
    pvNumFrames wbuf201.length ≤ 0 ∧
    phase_vocoder_pitch_shift wbuf201 1 zeroMath =
      some ⟨List.replicate wbuf201.length 0, wbuf201.length, wbuf201.sample_rate⟩ :=
  pv_short_input_silent wbuf201 1 zeroMath (by norm_num [wbuf201])

theorem scanDownOct_found (noteFreq : ℤ → ℚ) (cls : ℤ) (recorded : ℚ) :
    ∀ L : List ℤ,
      (∀ o ∈ L, 12 ≤ cls + o * 12 ∧ cls + o * 12 ≤ 108) →
      L.Pairwise (fun a b => noteFreq (cls + b * 12) < noteFreq (cls + a * 12)) →
      (∃ o ∈ L, noteFreq (cls + o * 12) < recorded) →
      (∃ o ∈ L, scanDownOct noteFreq cls recorded L = noteFreq (cls + o * 12) ∧
        noteFreq (cls + o * 12) < recorded) ∧
      (∀ o ∈ L, noteFreq (cls + o * 12) < recorded →
        noteFreq (cls + o * 12) ≤ scanDownOct noteFreq cls recorded L) := by
  intro L
  induction L with
  | nil =>
    intro _ _ hex
    obtain ⟨o, ho, _⟩ := hex
    exact absurd ho (List.not_mem_nil o)
  | cons o rest ih =>
    intro hval hpair hex
    have hvo := hval o (List.mem_cons_self o rest)
    simp only [scanDownOct]
    rw [if_pos hvo]
    by_cases hlt : noteFreq (cls + o * 12) < recorded
    · rw [if_pos hlt]
      constructor
      · exact ⟨o, List.mem_cons_self o rest, rfl, hlt⟩
      · intro o2 ho2 hlt2
        rcases List.mem_cons.1 ho2 with rfl | hmem
        · exact le_rfl
        · have := (List.pairwise_cons.1 hpair).1 o2 hmem
          linarith
    · rw [if_neg hlt]
      have hex2 : ∃ o2 ∈ rest, noteFreq (cls + o2 * 12) < recorded := by
        obtain ⟨o2, ho2, h2⟩ := hex
        rcases List.mem_cons.1 ho2 with rfl | hmem
        · exact absurd h2 hlt
        · exact ⟨o2, hmem, h2⟩
      obtain ⟨hfound, hmax⟩ := ih
        (fun o2 h2 => hval o2 (List.mem_cons_of_mem o h2))
        (List.pairwise_cons.1 hpair).2 hex2
      constructor
      · obtain ⟨o2, ho2, heq, h2⟩ := hfound
        exact ⟨o2, List.mem_cons_of_mem o ho2, heq, h2⟩
      · intro o2 ho2 hlt2
        rcases List.mem_cons.1 ho2 with rfl | hmem
        · exact absurd hlt2 hlt
        · exact hmax o2 hmem hlt2

theorem scanUpOct_found (noteFreq : ℤ → ℚ) (cls : ℤ) (recorded : ℚ) :
    ∀ L : List ℤ,
      (∀ o ∈ L, 12 ≤ cls + o * 12 ∧ cls + o * 12 ≤ 108) →
      L.Pairwise (fun a b => noteFreq (cls + a * 12) < noteFreq (cls + b * 12)) →
      (∃ o ∈ L, recorded < noteFreq (cls + o * 12)) →
      (∃ o ∈ L, scanUpOct noteFreq cls recorded L = noteFreq (cls + o * 12) ∧
        recorded < noteFreq (cls + o * 12)) ∧
      (∀ o ∈ L, recorded < noteFreq (cls + o * 12) →
        scanUpOct noteFreq cls recorded L ≤ noteFreq (cls + o * 12)) := by
  intro L
  induction L with
  | nil =>
    intro _ _ hex
    obtain ⟨o, ho, _⟩ := hex
    exact absurd ho (List.not_mem_nil o)
  | cons o rest ih =>
    intro hval hpair hex
    have hvo := hval o (List.mem_cons_self o rest)
    simp only [scanUpOct]
    rw [if_pos hvo]
    by_cases hlt : recorded < noteFreq (cls + o * 12)
    · rw [if_pos hlt]
      constructor
      · exact ⟨o, List.mem_cons_self o rest, rfl, hlt⟩
      · intro o2 ho2 hlt2
        rcases List.mem_cons.1 ho2 with rfl | hmem
        · exact le_rfl
        · have := (List.pairwise_cons.1 hpair).1 o2 hmem
          linarith
    · rw [if_neg hlt]
      have hex2 : ∃ o2 ∈ rest, recorded < noteFreq (cls + o2 * 12) := by
        obtain ⟨o2, ho2, h2⟩ := hex
        rcases List.mem_cons.1 ho2 with rfl | hmem
        · exact absurd h2 hlt
        · exact ⟨o2, hmem, h2⟩
      obtain ⟨hfound, hmin⟩ := ih
        (fun o2 h2 => hval o2 (List.mem_cons_of_mem o h2))
        (List.pairwise_cons.1 hpair).2 hex2
      constructor
      · obtain ⟨o2, ho2, heq, h2⟩ := hfound
        exact ⟨o2, List.mem_cons_of_mem o ho2, heq, h2⟩
      · intro o2 ho2 hlt2
        rcases List.mem_cons.1 ho2 with rfl | hmem
        · exact absurd hlt2 hlt
        · exact hmin o2 hmem hlt2

theorem scanDownOct_none (noteFreq : ℤ → ℚ) (cls : ℤ) (recorded : ℚ) :
    ∀ L : List ℤ,
      (∀ o ∈ L, (12 ≤ cls + o * 12 ∧ cls + o * 12 ≤ 108) →
        ¬ noteFreq (cls + o * 12) < recorded) →
      scanDownOct noteFreq cls recorded L = 0 := by
  intro L
  induction L with
  | nil => intro _; rfl
  | cons o rest ih =>
    intro h
    simp only [scanDownOct]
    by_cases hvo : 12 ≤ cls + o * 12 ∧ cls + o * 12 ≤ 108
    · rw [if_pos hvo, if_neg (h o (List.mem_cons_self o rest) hvo)]
      exact ih fun o2 h2 => h o2 (List.mem_cons_of_mem o h2)
    · rw [if_neg hvo]
      exact ih fun o2 h2 => h o2 (List.mem_cons_of_mem o h2)

theorem scanUpOct_none (noteFreq : ℤ → ℚ) (cls : ℤ) (recorded : ℚ) :
    ∀ L : List ℤ,
      (∀ o ∈ L, (12 ≤ cls + o * 12 ∧ cls + o * 12 ≤ 108) →
        ¬ recorded < noteFreq (cls + o * 12)) →
      scanUpOct noteFreq cls recorded L = 0 := by
  intro L
  induction L with
  | nil => intro _; rfl
  | cons o rest ih =>
    intro h
    simp only [scanUpOct]
    by_cases hvo : 12 ≤ cls + o * 12 ∧ cls + o * 12 ≤ 108
    · rw [if_pos hvo, if_neg (h o (List.mem_cons_self o rest) hvo)]
      exact ih fun o2 h2 => h o2 (List.mem_cons_of_mem o h2)
    · rw [if_neg hvo]
      exact ih fun o2 h2 => h o2 (List.mem_cons_of_mem o h2)

theorem mem_octs_down (o : ℤ) :
    o ∈ ([8, 7, 6, 5, 4, 3, 2, 1] : List ℤ) ↔ 1 ≤ o ∧ o ≤ 8 := by
  constructor
  · intro h
    simp only [List.mem_cons, List.not_mem_nil, or_false] at h
    rcases h with rfl | rfl | rfl | rfl | rfl | rfl | rfl | rfl <;> omega
  · intro ⟨h1, h2⟩
    interval_cases o <;> simp

theorem mem_octs_up (o : ℤ) :
    o ∈ ([1, 2, 3, 4, 5, 6, 7, 8] : List ℤ) ↔ 1 ≤ o ∧ o ≤ 8 := by
  constructor
  · intro h
    simp only [List.mem_cons, List.not_mem_nil, or_false] at h
    rcases h with rfl | rfl | rfl | rfl | rfl | rfl | rfl | rfl <;> omega
  · intro ⟨h1, h2⟩
    interval_cases o <;> simp

theorem octs_down_valid (cls : ℤ) (hcls : 0 ≤ cls ∧ cls ≤ 11) :
    ∀ o ∈ ([8, 7, 6, 5, 4, 3, 2, 1] : List ℤ),
      12 ≤ cls + o * 12 ∧ cls + o * 12 ≤ 108 := by
  intro o ho
  have := (mem_octs_down o).1 ho
  omega

theorem octs_up_valid (cls : ℤ) (hcls : 0 ≤ cls ∧ cls ≤ 11) :
    ∀ o ∈ ([1, 2, 3, 4, 5, 6, 7, 8] : List ℤ),
      12 ≤ cls + o * 12 ∧ cls + o * 12 ≤ 108 := by
  intro o ho
  have := (mem_octs_up o).1 ho
  omega

theorem octs_down_sorted (noteFreq : ℤ → ℚ) (cls : ℤ) (hm : StrictMono noteFreq) :
    ([8, 7, 6, 5, 4, 3, 2, 1] : List ℤ).Pairwise
      (fun a b => noteFreq (cls + b * 12) < noteFreq (cls + a * 12)) := by
  have hp : ([8, 7, 6, 5, 4, 3, 2, 1] : List ℤ).Pairwise (fun a b => b < a) := by
    decide
  exact hp.imp fun hab => hm (by omega)

theorem octs_up_sorted (noteFreq : ℤ → ℚ) (cls : ℤ) (hm : StrictMono noteFreq) :
    ([1, 2, 3, 4, 5, 6, 7, 8] : List ℤ).Pairwise
      (fun a b => noteFreq (cls + a * 12) < noteFreq (cls + b * 12)) := by
  have hp : ([1, 2, 3, 4, 5, 6, 7, 8] : List ℤ).Pairwise (fun a b => a < b) := by
    decide
  exact hp.imp fun hab => hm (by omega)

/-- C7: with the note-frequency map strictly monotone and positive on the
MIDI range (as `440 * 2^((m-69)/12)` is), and a pitch class in `[0, 11]`:
when the recorded frequency exceeds the reference, the mapper returns a
recurrence of the reference's pitch class (MIDI 12–108) strictly below the
recorded frequency, and it is the HIGHEST such recurrence (the descending
scan stops at the first hit); when the recorded frequency is below the
reference, it returns the LOWEST recurrence strictly above; in both cases
the shift ratio is `target / recorded` (`helloworld.c` lines 100–133,
774–790). -/
theorem frequency_mapper_picks_nearest (noteFreq : ℤ → ℚ)
    (recorded refFreq : ℚ) (cls : ℤ) (hm : StrictMono noteFreq)
    (hcls : 0 ≤ cls ∧ cls ≤ 11)
    (hpos : ∀ n : ℤ, 12 ≤ n → n ≤ 108 → 0 < noteFreq n) :
    (refFreq < recorded →
      (∃ o : ℤ, 1 ≤ o ∧ o ≤ 8 ∧ noteFreq (cls + o * 12) < recorded) →
      (∃ o : ℤ, 1 ≤ o ∧ o ≤ 8 ∧
        find_closest_target_frequency noteFreq recorded cls refFreq =
          noteFreq (cls + o * 12) ∧ noteFreq (cls + o * 12) < recorded) ∧
      (∀ o : ℤ, 1 ≤ o → o ≤ 8 → noteFreq (cls + o * 12) < recorded →
        noteFreq (cls + o * 12) ≤
          find_closest_target_frequency noteFreq recorded cls refFreq) ∧
      compute_shift_ratio noteFreq recorded cls refFreq =
        find_closest_target_frequency noteFreq recorded cls refFreq / recorded) ∧
    (recorded < refFreq →
      (∃ o : ℤ, 1 ≤ o ∧ o ≤ 8 ∧ recorded < noteFreq (cls + o * 12)) →
      (∃ o : ℤ, 1 ≤ o ∧ o ≤ 8 ∧
        find_closest_target_frequency noteFreq recorded cls refFreq =
          noteFreq (cls + o * 12) ∧ recorded < noteFreq (cls + o * 12)) ∧
      (∀ o : ℤ, 1 ≤ o → o ≤ 8 → recorded < noteFreq (cls + o * 12) →
        find_closest_target_frequency noteFreq recorded cls refFreq ≤
          noteFreq (cls + o * 12)) ∧
      compute_shift_ratio noteFreq recorded cls refFreq =
        find_closest_target_frequency noteFreq recorded cls refFreq / recorded) := by
  constructor
  · intro hdir hex
    have hfind : find_closest_target_frequency noteFreq recorded cls refFreq =
        scanDownOct noteFreq cls recorded [8, 7, 6, 5, 4, 3, 2, 1] := by
      rw [find_closest_target_frequency, if_pos hdir]
    obtain ⟨o0, h1, h2, h3⟩ := hex
    obtain ⟨hfound, hmax⟩ := scanDownOct_found noteFreq cls recorded _
      (octs_down_valid cls hcls) (octs_down_sorted noteFreq cls hm)
      ⟨o0, (mem_octs_down o0).2 ⟨h1, h2⟩, h3⟩
    obtain ⟨o2, ho2, heq, hlt2⟩ := hfound
    have hb := (mem_octs_down o2).1 ho2
    have hposf : 0 < find_closest_target_frequency noteFreq recorded cls refFreq := by
      rw [hfind, heq]
      exact hpos (cls + o2 * 12) (by omega) (by omega)
    refine ⟨⟨o2, hb.1, hb.2, by rw [hfind]; exact ⟨heq, hlt2⟩⟩, ?_, ?_⟩
    · intro o3 h31 h32 h33
      rw [hfind]
      exact hmax o3 ((mem_octs_down o3).2 ⟨h31, h32⟩) h33
    · rw [compute_shift_ratio, if_pos hposf]
  · intro hdir hex
    have hdir2 : ¬ refFreq < recorded := by linarith
    have hfind : find_closest_target_frequency noteFreq recorded cls refFreq =
        scanUpOct noteFreq cls recorded [1, 2, 3, 4, 5, 6, 7, 8] := by
      rw [find_closest_target_frequency, if_neg hdir2]
    obtain ⟨o0, h1, h2, h3⟩ := hex
    obtain ⟨hfound, hmin⟩ := scanUpOct_found noteFreq cls recorded _
      (octs_up_valid cls hcls) (octs_up_sorted noteFreq cls hm)
      ⟨o0, (mem_octs_up o0).2 ⟨h1, h2⟩, h3⟩
    obtain ⟨o2, ho2, heq, hlt2⟩ := hfound
    have hb := (mem_octs_up o2).1 ho2
    have hposf : 0 < find_closest_target_frequency noteFreq recorded cls refFreq := by
      rw [hfind, heq]
      exact hpos (cls + o2 * 12) (by omega) (by omega)
    refine ⟨⟨o2, hb.1, hb.2, by rw [hfind]; exact ⟨heq, hlt2⟩⟩, ?_, ?_⟩
    · intro o3 h31 h32 h33
      rw [hfind]
      exact hmin o3 ((mem_octs_up o3).2 ⟨h31, h32⟩) h33
    · rw [compute_shift_ratio, if_pos hposf]

theorem frequency_mapper_picks_nearest_witness :
    compute_shift_ratio (fun n : ℤ => (n : ℚ)) 100 9 50 =
      find_closest_target_frequency (fun n : ℤ => (n : ℚ)) 100 9 50 / 100 := by
  have hm : StrictMono (fun n : ℤ => (n : ℚ)) := by
    intro a b h
    show (a : ℚ) < (b : ℚ)
    exact_mod_cast h
  have hpos : ∀ n : ℤ, 12 ≤ n → n ≤ 108 → (0 : ℚ) < (fun n : ℤ => (n : ℚ)) n := by
    intro n h1 _
    show (0 : ℚ) < (n : ℚ)
    exact_mod_cast (by omega : (0:ℤ) < n)
  have h := frequency_mapper_picks_nearest (fun n : ℤ => (n : ℚ)) 100 50 9 hm
    ⟨by norm_num, by norm_num⟩ hpos
  refine (h.1 (by norm_num) ⟨1, by norm_num, by norm_num, ?_⟩).2.2
  show ((9 + 1 * 12 : ℤ) : ℚ) < 100
  norm_num

/-- C8: when no octave recurrence of the reference pitch class valid in MIDI
range 12–108 lies on the required side of the recorded frequency, the scan
returns 0 and the shift ratio is explicitly set to `1.0`, never left as a
zero ratio or zero target (`helloworld.c` lines 100–133, 822–825). -/
theorem frequency_mapper_defaults_to_one (noteFreq : ℤ → ℚ)
    (recorded refFreq : ℚ) (cls : ℤ) :
    (refFreq < recorded →
      (∀ o : ℤ, 1 ≤ o → o ≤ 8 → 12 ≤ cls + o * 12 → cls + o * 12 ≤ 108 →
        ¬ noteFreq (cls + o * 12) < recorded) →
      find_closest_target_frequency noteFreq recorded cls refFreq = 0 ∧
      compute_shift_ratio noteFreq recorded cls refFreq = 1) ∧
    (¬ refFreq < recorded →
      (∀ o : ℤ, 1 ≤ o → o ≤ 8 → 12 ≤ cls + o * 12 → cls + o * 12 ≤ 108 →
        ¬ recorded < noteFreq (cls + o * 12)) →
      find_closest_target_frequency noteFreq recorded cls refFreq = 0 ∧
      compute_shift_ratio noteFreq recorded cls refFreq = 1) := by
  constructor
  · intro hdir hnone
    have hfind : find_closest_target_frequency noteFreq recorded cls refFreq = 0 := by
      rw [find_closest_target_frequency, if_pos hdir]
      apply scanDownOct_none
      intro o ho hv
      have hb := (mem_octs_down o).1 ho
      exact hnone o hb.1 hb.2 hv.1 hv.2
    refine ⟨hfind, ?_⟩
    rw [compute_shift_ratio, if_neg (by rw [hfind]; exact lt_irrefl 0)]
  · intro hdir hnone
    have hfind : find_closest_target_frequency noteFreq recorded cls refFreq = 0 := by
      rw [find_closest_target_frequency, if_neg hdir]
      apply scanUpOct_none
      intro o ho hv
      have hb := (mem_octs_up o).1 ho
      exact hnone o hb.1 hb.2 hv.1 hv.2
    refine ⟨hfind, ?_⟩
    rw [compute_shift_ratio, if_neg (by rw [hfind]; exact lt_irrefl 0)]

theorem frequency_mapper_defaults_to_one_witness :
    find_closest_target_frequency (fun n : ℤ => (n : ℚ)) 15 9 10 = 0 ∧
    compute_shift_ratio (fun n : ℤ => (n : ℚ)) 15 9 10 = 1 := by
  have h := frequency_mapper_defaults_to_one (fun n : ℤ => (n : ℚ)) 15 10 9
  refine h.1 (by norm_num) ?_
  intro o h1 h2 _ _
  show ¬ ((9 + o * 12 : ℤ) : ℚ) < 15
  have : (15 : ℤ) ≤ 9 + o * 12 := by omega
  exact_mod_cast not_lt.2 (by exact_mod_cast this)

/-- C9: saving produces a byte stream beginning with exactly the 44-byte
canonical header the specification describes — for the embedded writer
(`wav_header`, format tag 1 = PCM) whenever the derived size fields do not
wrap their C integer widths, and for the float writer (`write_wav_file`,
format tag 3 = IEEE float) with its fixed mono/32-bit parameters — followed
immediately by the raw sample bytes (`helloworld.c` lines 143–164,
`phase_voc.c` lines 409–445). -/
theorem wav_writers_emit_canonical_header :
    (∀ n fs bits ch : ℕ, ch < 256 → ch * (bits / 8) < 65536 →
      fs * ch * (bits / 8) < 4294967296 → 36 + n * (ch * (bits / 8)) < 4294967296 →
      wav_header n fs bits ch = canonicalHeader 1 ch fs bits (n * (ch * (bits / 8))) ∧
      (wav_header n fs bits ch).length = 44) ∧
    (∀ (audio : AudioBuffer) (enc : ℚ → List ℕ),
      write_wav_file audio enc =
        canonicalHeader 3 1 audio.sample_rate 32 (audio.length * 4) ++
          (audio.data.take audio.length).flatMap enc ∧
      (canonicalHeader 3 1 audio.sample_rate 32 (audio.length * 4)).length = 44) ∧
    (∀ audio : AudioBuffer, save_wav_to_sd audio =
      wav_header audio.length audio.sample_rate 16 1 ++
        (audio.data.take audio.length).flatMap fun s => enc16 (pcm16_of_sample s)) := by
  refine ⟨?_, ?_, fun _ => rfl⟩
  · intro n fs bits ch h1 h2 h3 h4
    have hba : ch * (bits / 8) % 65536 = ch * (bits / 8) := Nat.mod_eq_of_lt h2
    have hds : n * (ch * (bits / 8)) % 4294967296 = n * (ch * (bits / 8)) :=
      Nat.mod_eq_of_lt (by omega)
    have hbr : fs * ch * (bits / 8) % 4294967296 = fs * ch * (bits / 8) :=
      Nat.mod_eq_of_lt h3
    have hch : ch % 256 = ch := Nat.mod_eq_of_lt h1
    have hch2 : ch / 256 % 256 = 0 := by omega
    constructor
    · simp only [wav_header, canonicalHeader, le32, le16, hba, hds, hbr,
        List.cons_append, List.nil_append]
      rw [Nat.mod_eq_of_lt (show 36 + n * (ch * (bits / 8)) < 4294967296 by omega)]
      norm_num [hch, hch2, List.cons.injEq]
    · rfl
  · intro audio enc
    constructor
    · simp only [write_wav_file, canonicalHeader, le32, le16,
        List.cons_append, List.nil_append, List.append_assoc]
      norm_num
    · simp only [canonicalHeader, le32, le16, List.cons_append, List.nil_append]
      rfl

theorem wav_writers_emit_canonical_header_witness :
    wav_header 3 40 16 1 = canonicalHeader 1 1 40 16 (3 * (1 * (16 / 8))) ∧
    (wav_header 3 40 16 1).length = 44 :=
  wav_writers_emit_canonical_header.1 3 40 16 1 (by norm_num) (by norm_num)
    (by norm_num) (by norm_num)

/-!  ### C2: WAV round-trip  -/

theorem clampSample_eq (s : ℚ) (h1 : -1 ≤ s) (h2 : s ≤ 1) : clampSample s = s := by
  simp only [clampSample]
  rw [if_neg (not_lt.2 h2), if_neg (not_lt.2 h1)]

theorem pcm16_range (s : ℚ) (h1 : -1 ≤ s) (h2 : s ≤ 1) :
    -32768 ≤ pcm16_of_sample s ∧ pcm16_of_sample s ≤ 32767 := by
  rw [pcm16_of_sample, clampSample_eq s h1 h2]
  rcases le_or_lt 0 s with hs | hs
  · have hq : (0:ℚ) ≤ s * 32767 := mul_nonneg hs (by norm_num)
    constructor
    · have := ratTrunc_nonneg _ hq
      omega
    · have ha := ratTrunc_le_self _ hq
      have hb : ((ratTrunc (s * 32767) : ℤ) : ℚ) ≤ 32767 := le_trans ha (by linarith)
      exact_mod_cast hb
  · have hq : s * 32767 ≤ 0 := by linarith
    constructor
    · have ha := le_ratTrunc_of_nonpos _ hq
      have hb : (-32768 : ℚ) ≤ ((ratTrunc (s * 32767) : ℤ) : ℚ) :=
        le_trans (by linarith) ha
      exact_mod_cast hb
    · have := ratTrunc_nonpos _ hq
      omega

theorem roundtrip16_err (s : ℚ) (h1 : -1 ≤ s) (h2 : s ≤ 1) :
    |s - ((pcm16_of_sample s : ℤ) : ℚ) / 32768| < 1/16384 := by
  rw [pcm16_of_sample, clampSample_eq s h1 h2]
  have hkey : |s * 32768 - ((ratTrunc (s * 32767) : ℤ) : ℚ)| < 2 := by
    rcases le_or_lt 0 s with hs | hs
    · have hq : (0:ℚ) ≤ s * 32767 := mul_nonneg hs (by norm_num)
      have ha := ratTrunc_le_self _ hq
      have hb := lt_ratTrunc_add_one _ hq
      rw [abs_lt]
      constructor <;> linarith
    · have hq : s * 32767 ≤ 0 := by linarith
      have ha := le_ratTrunc_of_nonpos _ hq
      have hb := ratTrunc_sub_one_lt _ hq
      rw [abs_lt]
      constructor <;> linarith
  have heq : s - ((ratTrunc (s * 32767) : ℤ) : ℚ) / 32768
      = (s * 32768 - ((ratTrunc (s * 32767) : ℤ) : ℚ)) / 32768 := by ring
  rw [heq, abs_div, show |(32768:ℚ)| = 32768 from abs_of_pos (by norm_num),
    div_lt_iff (by norm_num : (0:ℚ) < 32768)]
  calc |s * 32768 - ((ratTrunc (s * 32767) : ℤ) : ℚ)| < 2 := hkey
    _ ≤ 1/16384 * 32768 := by norm_num

theorem decode16_enc16 (v : ℤ) (h1 : -32768 ≤ v) (h2 : v ≤ 32767) :
    decode16 ((enc16 v).getD 0 0) ((enc16 v).getD 1 0) = v := by
  show decode16 ((v % 65536).toNat % 256) ((v % 65536).toNat / 256) = v
  simp only [decode16]
  split <;> omega

theorem flatMap_drop_take4 (enc : ℚ → List ℕ) :
    ∀ (l : List ℚ), (∀ s ∈ l, (enc s).length = 4) →
      ∀ i, i < l.length → ((l.flatMap enc).drop (4*i)).take 4 = enc (l.getD i 0) := by
  intro l
  induction l with
  | nil =>
    intro _ i hi
    exact absurd hi (Nat.not_lt_zero i)
  | cons x t ih =>
    intro h i hi
    rw [List.flatMap_cons]
    cases i with
    | zero =>
      rw [Nat.mul_zero, List.drop_zero, List.take_left' (h x (List.mem_cons_self x t))]
      rfl
    | succ j =>
      have h4 : (enc x).length = 4 := h x (List.mem_cons_self x t)
      rw [show 4 * (j+1) = (enc x).length + 4*j from by rw [h4]; ring, List.drop_append,
        ih (fun s hs => h s (List.mem_cons_of_mem x hs)) j
          (by rw [List.length_cons] at hi; omega)]
      rw [List.getD_cons_succ]

theorem flatMap2_getD (f : ℚ → List ℕ) (hf : ∀ s : ℚ, (f s).length = 2) :
    ∀ (l : List ℚ) (i : ℕ), i < l.length →
      (l.flatMap f).getD (2*i) 0 = (f (l.getD i 0)).getD 0 0 ∧
      (l.flatMap f).getD (2*i+1) 0 = (f (l.getD i 0)).getD 1 0 := by
  intro l
  induction l with
  | nil =>
    intro i hi
    exact absurd hi (Nat.not_lt_zero i)
  | cons x t ih =>
    intro i hi
    rw [List.flatMap_cons]
    cases i with
    | zero =>
      constructor
      · rw [Nat.mul_zero, List.getD_append _ _ _ _ (by rw [hf x]; norm_num)]
        rfl
      · rw [Nat.mul_zero, Nat.zero_add, List.getD_append _ _ _ _ (by rw [hf x]; norm_num)]
        rfl
    | succ j =>
      have hj : j < t.length := by rw [List.length_cons] at hi; omega
      have h2 := ih j hj
      constructor
      · rw [List.getD_append_right _ _ _ _ (by rw [hf x]; omega), hf x,
          show 2 * (j+1) - 2 = 2*j from by ring_nf; omega]
        rw [List.getD_cons_succ]
        exact h2.1
      · rw [List.getD_append_right _ _ _ _ (by rw [hf x]; omega), hf x,
          show 2 * (j+1) + 1 - 2 = 2*j+1 from by ring_nf; omega]
        rw [List.getD_cons_succ]
        exact h2.2

theorem read_wav_after_write (audio : AudioBuffer) (enc : ℚ → List ℕ) (dec : List ℕ → ℚ)
    (hlen : audio.data.length = audio.length)
    (hsr : audio.sample_rate < 4294967296)
    (hsz : 36 + audio.length * 4 < 4294967296)
    (hcodec : ∀ s ∈ audio.data, (enc s).length = 4 ∧ dec (enc s) = s) :
    read_wav_file (write_wav_file audio enc) dec = some audio := by
  obtain ⟨d, n, sr⟩ := audio
  replace hlen : d.length = n := hlen
  replace hsr : sr < 4294967296 := hsr
  replace hsz : 36 + n * 4 < 4294967296 := hsz
  replace hcodec : ∀ s ∈ d, (enc s).length = 4 ∧ dec (enc s) = s := hcodec
  have hW : write_wav_file ⟨d, n, sr⟩ enc =
      [82, 73, 70, 70] ++ (le32 (36 + n * 4) ++ ([87, 65, 86, 69] ++ ([102, 109, 116, 32] ++
      (le32 16 ++ (le16 3 ++ (le16 1 ++ (le32 sr ++ (le32 (sr * 4) ++ (le16 4 ++
      (le16 32 ++ ([100, 97, 116, 97] ++ (le32 (n * 4) ++
        (d.take n).flatMap enc)))))))))))) := by
    rw [write_wav_file]
    simp only [List.append_assoc]
  rw [hW]
  set B := [82, 73, 70, 70] ++ (le32 (36 + n * 4) ++ ([87, 65, 86, 69] ++
      ([102, 109, 116, 32] ++ (le32 16 ++ (le16 3 ++ (le16 1 ++ (le32 sr ++
      (le32 (sr * 4) ++ (le16 4 ++ (le16 32 ++ ([100, 97, 116, 97] ++ (le32 (n * 4) ++
        (d.take n).flatMap enc)))))))))))) with hB
  have hmag : B.getD 0 0 = 82 ∧ B.getD 1 0 = 73 ∧ B.getD 2 0 = 70 ∧ B.getD 3 0 = 70 ∧
      B.getD 8 0 = 87 ∧ B.getD 9 0 = 65 ∧ B.getD 10 0 = 86 ∧ B.getD 11 0 = 69 := by
    rw [hB]
    exact ⟨rfl, rfl, rfl, rfl, rfl, rfl, rfl, rfl⟩
  have hfmt : rd32 B 16 = 16 := by rw [hB]; rfl
  have haf : rd16 B 20 = 3 := by rw [hB]; rfl
  have hch : rd16 B 22 = 1 := by rw [hB]; rfl
  have hbits : rd16 B 34 = 32 := by rw [hB]; rfl
  have hsr' : rd32 B 24 = sr := by
    rw [hB]
    show sr % 256 + 256 * (sr / 256 % 256) + 65536 * (sr / 65536 % 256) +
      16777216 * (sr / 16777216 % 256) = sr
    omega
  have hif : (if 16 < 16 then 16 - 16 else 0) = 0 := if_neg (lt_irrefl 16)
  have hdrop36 : B.drop 36 = [100, 97, 116, 97] ++ (le32 (n * 4) ++ (d.take n).flatMap enc) := by
    rw [hB]; rfl
  have hnl : ¬ ([100, 97, 116, 97] ++ (le32 (n * 4) ++ (d.take n).flatMap enc)).length < 4 := by
    simp only [List.length_append, le32, List.length_cons, List.length_nil]
    omega
  have hrd4 : rd32 ([100, 97, 116, 97] ++ (le32 (n * 4) ++ (d.take n).flatMap enc)) 4
      = n * 4 := by
    show n * 4 % 256 + 256 * (n * 4 / 256 % 256) + 65536 * (n * 4 / 65536 % 256) +
      16777216 * (n * 4 / 16777216 % 256) = n * 4
    omega
  have hfind : ∀ m : ℕ, findDataChunk (m + 1)
      ([100, 97, 116, 97] ++ (le32 (n * 4) ++ (d.take n).flatMap enc)) =
      some (n * 4, (d.take n).flatMap enc) := by
    intro m
    have htake : ([100, 97, 116, 97] ++ (le32 (n * 4) ++ (d.take n).flatMap enc)).take 4
        = [100, 97, 116, 97] := rfl
    rw [findDataChunk, if_neg hnl, if_pos htake, hrd4]
    rfl
  have hPQ : d.take n = d := by rw [← hlen]; exact List.take_length d
  simp only [read_wav_file, hfmt, haf, hch, hsr', hbits, hif, Nat.add_zero, hdrop36, hfind]
  rw [if_pos hmag]
  rw [if_neg (by decide : ¬((3:ℕ) = 1 ∧ (32:ℕ) = 16)),
    if_pos (⟨trivial, trivial⟩ : True ∧ True)]
  rw [show n * 4 / (32 / 8) / 1 = n from by omega]
  refine congrArg some ?_
  rw [AudioBuffer.mk.injEq]
  refine ⟨?_, rfl, rfl⟩
  simp only [hPQ]
  apply List.ext_getElem
  · simp only [List.length_map, List.length_range]
    exact hlen.symm
  · intro i h1 h2
    simp only [List.getElem_map, List.getElem_range]
    rw [if_neg (by decide : ¬(1:ℕ) = 2)]
    rw [flatMap_drop_take4 enc d (fun s hs => (hcodec s hs).1) i h2]
    rw [List.getD_eq_getElem d 0 h2]
    exact (hcodec _ (List.getElem_mem h2)).2

theorem load_wav_after_save (audio : AudioBuffer)
    (hlen : audio.data.length = audio.length)
    (hsr : audio.sample_rate < 4294967296)
    (hsz : audio.length * 2 < 4294967296)
    (hmem : ∀ s ∈ audio.data, -1 ≤ s ∧ s ≤ 1) :
    ∃ out : AudioBuffer,
      load_wav_from_sd (save_wav_to_sd audio) = some out ∧
      out.length = audio.length ∧ out.sample_rate = audio.sample_rate ∧
      out.data.length = audio.length ∧
      ∀ (i : ℕ) (hi : i < audio.data.length) (ho : i < out.data.length),
        |audio.data.get ⟨i, hi⟩ - out.data.get ⟨i, ho⟩| < 1/16384 := by
  obtain ⟨d, n, sr⟩ := audio
  replace hlen : d.length = n := hlen
  replace hsr : sr < 4294967296 := hsr
  replace hsz : n * 2 < 4294967296 := hsz
  replace hmem : ∀ s ∈ d, -1 ≤ s ∧ s ≤ 1 := hmem
  have hPQ : d.take n = d := by rw [← hlen]; exact List.take_length d
  have hBlen : (save_wav_to_sd ⟨d, n, sr⟩).length =
      44 + ((d.take n).flatMap (fun s => enc16 (pcm16_of_sample s))).length := by
    show (wav_header n sr 16 1 ++
      (d.take n).flatMap (fun s => enc16 (pcm16_of_sample s))).length = _
    rw [List.length_append]
    rfl
  have hnotlt : ¬ (save_wav_to_sd ⟨d, n, sr⟩).length < 44 := by
    rw [hBlen]; omega
  have hmagB : (save_wav_to_sd ⟨d, n, sr⟩).getD 0 0 = 82 ∧
      (save_wav_to_sd ⟨d, n, sr⟩).getD 1 0 = 73 ∧
      (save_wav_to_sd ⟨d, n, sr⟩).getD 2 0 = 70 ∧
      (save_wav_to_sd ⟨d, n, sr⟩).getD 3 0 = 70 ∧
      (save_wav_to_sd ⟨d, n, sr⟩).getD 8 0 = 87 ∧
      (save_wav_to_sd ⟨d, n, sr⟩).getD 9 0 = 65 ∧
      (save_wav_to_sd ⟨d, n, sr⟩).getD 10 0 = 86 ∧
      (save_wav_to_sd ⟨d, n, sr⟩).getD 11 0 = 69 :=
    ⟨rfl, rfl, rfl, rfl, rfl, rfl, rfl, rfl⟩
  have h34 : rd16 (save_wav_to_sd ⟨d, n, sr⟩) 34 = 16 := rfl
  have h40 : rd32 (save_wav_to_sd ⟨d, n, sr⟩) 40 = n * 2 := by
    show n * 2 % 4294967296 % 256 + 256 * (n * 2 % 4294967296 / 256 % 256) +
      65536 * (n * 2 % 4294967296 / 65536 % 256) +
      16777216 * (n * 2 % 4294967296 / 16777216 % 256) = n * 2
    omega
  have h24 : rd32 (save_wav_to_sd ⟨d, n, sr⟩) 24 = sr := by
    show sr % 256 + 256 * (sr / 256 % 256) + 65536 * (sr / 65536 % 256) +
      16777216 * (sr / 16777216 % 256) = sr
    omega
  have hdropB : (save_wav_to_sd ⟨d, n, sr⟩).drop 44 =
      d.flatMap (fun s => enc16 (pcm16_of_sample s)) := by
    show (wav_header n sr 16 1 ++
      (d.take n).flatMap (fun s => enc16 (pcm16_of_sample s))).drop 44 = _
    rw [hPQ]
    exact List.drop_left' rfl
  refine ⟨⟨(List.range n).map
      (fun i => ((pcm16_of_sample (d.getD i 0) : ℤ) : ℚ) / 32768), n, sr⟩, ?_, rfl, rfl,
      by simp, ?_⟩
  · rw [load_wav_from_sd, if_neg hnotlt, if_pos hmagB, if_pos h34]
    simp only [h40, h24, hdropB]
    rw [show n * 2 / 2 = n from by omega]
    refine congrArg some ?_
    rw [AudioBuffer.mk.injEq]
    refine ⟨?_, rfl, rfl⟩
    apply List.map_congr_left
    intro i hi
    have hid : i < d.length := by rw [hlen]; exact List.mem_range.1 hi
    obtain ⟨e0, e1⟩ :=
      flatMap2_getD (fun s => enc16 (pcm16_of_sample s)) (fun _ => rfl) d i hid
    rw [e0, e1]
    have hsmem : d.getD i 0 ∈ d := by
      rw [List.getD_eq_getElem d 0 hid]
      exact List.getElem_mem hid
    have hb := pcm16_range (d.getD i 0) (hmem _ hsmem).1 (hmem _ hsmem).2
    rw [decode16_enc16 _ hb.1 hb.2]
  · intro i hi ho
    simp only [List.get_eq_getElem, List.getElem_map, List.getElem_range]
    rw [List.getD_eq_getElem d 0 hi]
    exact roundtrip16_err _ (hmem _ (List.getElem_mem hi)).1 (hmem _ (List.getElem_mem hi)).2

/-- **C2** (amended).  WAV round-trip: writing with `write_wav_file` (32-bit
float, mono) and reading back with `read_wav_file` reproduces the buffer
exactly whenever the abstract 4-byte float codec is lossless on the stored
samples; saving with `save_wav_to_sd` (16-bit PCM, mono) and loading with
`load_wav_from_sd` reproduces length and rate and every sample within a
per-sample error strictly below 1/16384 (not 1/32768 as the specification
claims — see the counterexample), for samples in [-1, 1] and sizes that do
not wrap the 32-bit header fields. -/
theorem wav_roundtrip_within_quantization :
    (∀ (audio : AudioBuffer) (enc : ℚ → List ℕ) (dec : List ℕ → ℚ),
      audio.data.length = audio.length → audio.sample_rate < 4294967296 →
      36 + audio.length * 4 < 4294967296 →
      (∀ s ∈ audio.data, (enc s).length = 4 ∧ dec (enc s) = s) →
      read_wav_file (write_wav_file audio enc) dec = some audio) ∧
    (∀ audio : AudioBuffer,
      audio.data.length = audio.length → audio.sample_rate < 4294967296 →
      audio.length * 2 < 4294967296 →
      (∀ s ∈ audio.data, -1 ≤ s ∧ s ≤ 1) →
      ∃ out : AudioBuffer,
        load_wav_from_sd (save_wav_to_sd audio) = some out ∧
        out.length = audio.length ∧ out.sample_rate = audio.sample_rate ∧
        out.data.length = audio.length ∧
        ∀ (i : ℕ) (hi : i < audio.data.length) (ho : i < out.data.length),
          |audio.data.get ⟨i, hi⟩ - out.data.get ⟨i, ho⟩| < 1/16384) :=
  ⟨read_wav_after_write, load_wav_after_save⟩

theorem wav_roundtrip_within_quantization_witness :
    read_wav_file (write_wav_file rtBuf fEnc0) fDec0 = some rtBuf ∧
    (load_wav_from_sd (save_wav_to_sd rtBuf)).isSome = true := by
  constructor
  · exact wav_roundtrip_within_quantization.1 rtBuf fEnc0 fDec0 rfl (by norm_num [rtBuf])
      (by norm_num [rtBuf])
      (fun s hs => by
        have h0 : s = 0 := List.eq_of_mem_singleton hs
        subst h0
        exact ⟨rfl, rfl⟩)
  · obtain ⟨out, ho, -, -, -, -⟩ := wav_roundtrip_within_quantization.2 rtBuf rfl
      (by norm_num [rtBuf]) (by norm_num [rtBuf])
      (fun s hs => by
        have h0 : s = 0 := List.eq_of_mem_singleton hs
        subst h0
        norm_num)
    rw [ho]
    rfl

/-- **C2**, counterexample to the specified 16-bit error bound of 1/32768:
the in-range sample 65535/65536 is stored by `save_wav_to_sd` as the PCM
value 32766 (the C cast truncates 32766.4999... toward zero) and read back
by `load_wav_from_sd` as 16383/16384, an error of 3/65536 > 1/32768. -/
theorem wav_roundtrip_16bit_exceeds_claimed_bound :
    (-1 ≤ cexBuf.data.getD 0 0 ∧ cexBuf.data.getD 0 0 ≤ 1) ∧
    load_wav_from_sd (save_wav_to_sd cexBuf) = some ⟨[16383/16384], 1, 40⟩ ∧
    1/32768 < |cexBuf.data.getD 0 0 - 16383/16384| := by
  have hpcm : pcm16_of_sample (65535/65536) = 32766 := by
    rw [pcm16_of_sample, clampSample_eq _ (by norm_num) (by norm_num),
      show (65535/65536 : ℚ) * 32767 = 2147385345/65536 from by norm_num,
      ratTrunc_eq_floor _ (by norm_num), Int.floor_eq_iff]
    norm_num
  have henc2 : (cexBuf.data.take cexBuf.length).flatMap
      (fun s => enc16 (pcm16_of_sample s)) = [254, 127] := by
    show (([(65535/65536 : ℚ)]).take 1).flatMap (fun s => enc16 (pcm16_of_sample s))
      = [254, 127]
    rw [show (([(65535/65536 : ℚ)]).take 1) = [(65535/65536 : ℚ)] from rfl,
      List.flatMap_cons, List.flatMap_nil, List.append_nil, hpcm]
    rfl
  have hsave : save_wav_to_sd cexBuf = wav_header 1 40 16 1 ++ [254, 127] := by
    rw [save_wav_to_sd, henc2]
    rfl
  have hdec : decode16 254 127 = 32766 := by
    norm_num [decode16]
  have hload : load_wav_from_sd (wav_header 1 40 16 1 ++ [254, 127])
      = some ⟨[16383/16384], 1, 40⟩ := by
    have hlen46 : ¬ (wav_header 1 40 16 1 ++ [254, 127]).length < 44 := by decide
    have hmagC : (wav_header 1 40 16 1 ++ [254, 127]).getD 0 0 = 82 ∧
        (wav_header 1 40 16 1 ++ [254, 127]).getD 1 0 = 73 ∧
        (wav_header 1 40 16 1 ++ [254, 127]).getD 2 0 = 70 ∧
        (wav_header 1 40 16 1 ++ [254, 127]).getD 3 0 = 70 ∧
        (wav_header 1 40 16 1 ++ [254, 127]).getD 8 0 = 87 ∧
        (wav_header 1 40 16 1 ++ [254, 127]).getD 9 0 = 65 ∧
        (wav_header 1 40 16 1 ++ [254, 127]).getD 10 0 = 86 ∧
        (wav_header 1 40 16 1 ++ [254, 127]).getD 11 0 = 69 :=
      ⟨rfl, rfl, rfl, rfl, rfl, rfl, rfl, rfl⟩
    have h34C : rd16 (wav_header 1 40 16 1 ++ [254, 127]) 34 = 16 := rfl
    rw [load_wav_from_sd, if_neg hlen46, if_pos hmagC, if_pos h34C]
    show some (⟨[((decode16 254 127 : ℤ) : ℚ) / 32768], 1, 40⟩ : AudioBuffer)
      = some (⟨[(16383/16384 : ℚ)], 1, 40⟩ : AudioBuffer)
    rw [hdec, show ((32766 : ℤ) : ℚ) / 32768 = (16383/16384 : ℚ) from by norm_num]
  refine ⟨⟨by norm_num [cexBuf], by norm_num [cexBuf]⟩, ?_, ?_⟩
  · rw [hsave]
    exact hload
  · show (1:ℚ)/32768 < |(65535/65536 : ℚ) - 16383/16384|
    rw [show (65535/65536 : ℚ) - 16383/16384 = 3/65536 from by norm_num,
      abs_of_pos (by norm_num : (0:ℚ) < 3/65536)]
    norm_num
